import Mathlib

/-
Verification of the market engine in cogs/market.py (Miku-DiscordBot).

Shallow embedding conventions:
* SQL REAL columns (prices, cash amounts of the market maker, revenues) are
  modelled as exact rationals.  SQL INTEGER columns (share quantities,
  per-user cash in the economy table) are modelled as Int.
* Python int(x) truncates toward zero; it is modelled by truncQ below.
* Python round(x, 2) rounds to two decimals with ties to even; it is
  modelled by round2 below (on the decimal value; binary floating point
  representation error is out of scope of this development).
* SQL UPDATE on an absent row is a no-op; per-key tables are modelled as
  functions into Option, and UPDATE as Option.map.
* The trades, orders, holdings, economy and price_history tables are
  modelled as lists of rows.
* Timestamps (ISO date strings in the source, compared lexicographically,
  hence chronologically) are modelled as natural numbers counting seconds;
  dayOf recovers the calendar day used by date(timestamp) grouping.
* The fillLog field of the state is ghost instrumentation: it records, for
  each fill produced by the matching loop, the two order ids involved and
  the filled quantity, so that the conservation property (total fills of an
  order against its quantity and remaining) can be stated.  The source
  stores no order ids on trades; nothing in the embedded code reads it.
-/

set_option allowUnsafeReducibility true in
attribute [semireducible] Rat.mul Rat.add Rat.sub Rat.div Rat.neg Rat.inv Rat.blt

namespace MikuMarket

/-- truncQ models Python int() applied to an exact rational: truncation toward zero. -/
def truncQ (x : ℚ) : ℤ := Int.sign x.num * ((x.num.natAbs / x.den : ℕ) : ℤ)

/-- floorQ is the floor of a rational, used by roundHalfEven. -/
def floorQ (x : ℚ) : ℤ := Int.ediv x.num (x.den : ℤ)

/-- roundHalfEven models Python round() to the nearest integer, ties to even. -/
def roundHalfEven (y : ℚ) : ℤ :=
  let f := floorQ y
  let r := y - (f : ℚ)
  if r < 1/2 then f
  else if 1/2 < r then f + 1
  else if f % 2 = 0 then f else f + 1

/-- round2 models Python round(x, 2) on the exact decimal value. -/
def round2 (x : ℚ) : ℚ := (roundHalfEven (100 * x) : ℚ) / 100

/-- MM_USER_ID is the sentinel participant id of the market maker. -/
def MM_USER_ID : Nat := 0

def MM_ALPHA : ℚ := 3/10
def MM_BASE_SPREAD : ℚ := 8/10
def MM_A : ℚ := 3/2
def MM_B : ℚ := 1
def MM_C : ℚ := 1
def MM_K : ℚ := 5/100
def MM_TARGET_INVENTORY_PCT : ℚ := 35/100
def MM_MAX_WEEKLY_MOVE : ℚ := 8/100
def MM_TRADE_IMPACT : ℚ := 2/100
def MM_STARTING_CASH : ℚ := 30000
def MM_STARTING_SHARES : ℤ := 1000
def IPO_TOTAL_SHARES : ℤ := 1000

/-- Side of an order. -/
inductive Side where
  | buy
  | sell
deriving DecidableEq, Repr

/-- Order is a row of the orders table. -/
structure Order where
  id : Nat
  guildId : Nat
  channelId : Nat
  userId : Nat
  side : Side
  price : ℚ
  quantity : ℤ
  remaining : ℤ
  isMM : Bool
  createdAt : Nat
deriving DecidableEq, Repr

/-- Trade is a row of the append-only trades table. -/
structure Trade where
  channelId : Nat
  buyerId : Nat
  sellerId : Nat
  price : ℚ
  quantity : ℤ
  timestamp : Nat
deriving DecidableEq, Repr

/-- MMState is a row of the mm_state table. -/
structure MMState where
  cash : ℚ
  inventory : ℤ
  fairPrice : ℚ
  volatility : ℚ
  lastQuoteTime : Nat
deriving DecidableEq, Repr

/-- Company is a row of the companies table (the name column, presentation
only, is omitted). -/
structure Company where
  guildId : Nat
  ipoPrice : ℚ
  fairPrice : ℚ
  lastRevenue : ℚ
  totalShares : ℤ
  dividendPct : ℚ
  createdAt : Nat
deriving DecidableEq, Repr

/-- HoldingRow is a row of the holdings table. -/
structure HoldingRow where
  userId : Nat
  channelId : Nat
  quantity : ℤ
  avgCost : ℚ
deriving DecidableEq, Repr

/-- EconRow is a row of the economy table (bank column, unused by the
market engine, omitted). -/
structure EconRow where
  userId : Nat
  cash : ℤ
deriving DecidableEq, Repr

/-- CRev is a row of the channel_revenue table for one (channel, week) key. -/
structure CRev where
  accumulated : ℚ
  lastRevenue : ℚ
deriving DecidableEq, Repr

/-- State bundles the database tables the market engine reads and writes. -/
structure State where
  companies : Nat → Option Company
  orders : List Order
  holdings : List HoldingRow
  economy : List EconRow
  mmState : Nat → Option MMState
  trades : List Trade
  channelRevenue : Nat → Nat → Option CRev
  marketSettings : Nat → Option ℚ
  priceHistory : List (Nat × Nat × ℚ)
  nextOrderId : Nat
  fillLog : List (Nat × ℤ)

/-- Env carries the ambient inputs of one engine call: the wall clock, the
current week key, the volatility estimate (the source computes it as the
standard deviation of log returns of the last 20 trade prices, a
transcendental function not representable in exact arithmetic, so it enters
the model as an input) and the random noise factor drawn by settlement
(random.uniform(0.95, 1.05) in the source). -/
structure Env where
  now : Nat
  weekStart : Nat
  volatility : ℚ
  noise : ℚ

/-- dayOf recovers the calendar day of a second-grained timestamp. -/
def dayOf (t : Nat) : Nat := t / 86400

/-- find_cash reads a user's cash from the economy table, 0 when absent. -/
def find_cash (l : List EconRow) (user_id : Nat) : ℤ :=
  match l.find? (fun r => r.userId == user_id) with
  | some r => r.cash
  | none => 0

/-- econ_credit models the SQL UPDATE of Market.update_cash on the economy
table: add to cash where the user id matches (a no-op when no row matches). -/
def econ_credit (l : List EconRow) (user_id : Nat) (amount : ℤ) : List EconRow :=
  l.map (fun r => if r.userId = user_id then { r with cash := r.cash + amount } else r)

/-- econ_ensure models the INSERT OR IGNORE of Market.ensure_economy_row. -/
def econ_ensure (l : List EconRow) (user_id : Nat) : List EconRow :=
  if l.any (fun r => r.userId == user_id) then l else l ++ [⟨user_id, 0⟩]

/-- get_cash mirrors Market.get_cash: the economy row's cash, or 0 if absent. -/
def get_cash (s : State) (user_id : Nat) : ℤ := find_cash s.economy user_id

/-- update_cash mirrors Market.update_cash. -/
def update_cash (s : State) (user_id : Nat) (amount : ℤ) : State :=
  { s with economy := econ_credit s.economy user_id amount }

/-- ensure_economy_row mirrors Market.ensure_economy_row. -/
def ensure_economy_row (s : State) (user_id : Nat) : State :=
  { s with economy := econ_ensure s.economy user_id }

/-- find_holding reads the (quantity, avg_cost) of a holdings row,
defaulting to (0, 0) when the row is absent. -/
def find_holding (l : List HoldingRow) (user_id channel_id : Nat) : ℤ × ℚ :=
  match l.find? (fun r => r.userId == user_id && r.channelId == channel_id) with
  | some r => (r.quantity, r.avgCost)
  | none => (0, 0)

/-- upsertHolding replaces the (user, channel) row if present, else appends. -/
def upsertHolding (l : List HoldingRow) (row : HoldingRow) : List HoldingRow :=
  if l.any (fun r => r.userId == row.userId && r.channelId == row.channelId) then
    l.map (fun r => if r.userId = row.userId ∧ r.channelId = row.channelId then row else r)
  else l ++ [row]

/-- holdings_update models the table effect of Market.update_holdings:
delete the row when the new quantity is non-positive, otherwise upsert it,
recomputing the weighted average cost on buys with a positive price. -/
def holdings_update (l : List HoldingRow) (user_id channel_id : Nat) (qty_delta : ℤ)
    (price : Option ℚ) : List HoldingRow :=
  let old := find_holding l user_id channel_id
  let new_qty := old.1 + qty_delta
  if new_qty ≤ 0 then
    l.filter (fun r => !(r.userId == user_id && r.channelId == channel_id))
  else
    let new_avg :=
      match price with
      | some p =>
          if qty_delta > 0 ∧ p > 0 then ((old.1 : ℚ) * old.2 + (qty_delta : ℚ) * p) / (new_qty : ℚ)
          else old.2
      | none => old.2
    upsertHolding l ⟨user_id, channel_id, new_qty, new_avg⟩

/-- get_holdings mirrors Market.get_holdings. -/
def get_holdings (s : State) (user_id channel_id : Nat) : ℤ × ℚ :=
  find_holding s.holdings user_id channel_id

/-- update_holdings mirrors Market.update_holdings. -/
def update_holdings (s : State) (user_id channel_id : Nat) (qty_delta : ℤ)
    (price : Option ℚ) : State :=
  { s with holdings := holdings_update s.holdings user_id channel_id qty_delta price }

/-- updateMMState models SQL UPDATE on the mm_state row of one channel
(a no-op when the row is absent). -/
def updateMMState (s : State) (channel_id : Nat) (f : MMState → MMState) : State :=
  { s with mmState := fun c => if c = channel_id then (s.mmState c).map f else s.mmState c }

/-- updateCompany models SQL UPDATE on the companies row of one channel. -/
def updateCompany (s : State) (channel_id : Nat) (f : Company → Company) : State :=
  { s with companies := fun c => if c = channel_id then (s.companies c).map f else s.companies c }

/-- cancel_mm_orders mirrors Market.cancel_mm_orders: DELETE FROM orders
WHERE channel_id = ? AND is_mm = 1. -/
def cancel_mm_orders (s : State) (channel_id : Nat) : State :=
  { s with orders := s.orders.filter (fun o => !(o.channelId == channel_id && o.isMM)) }

/-- get_daily_volume mirrors Market.get_daily_volume: total traded quantity
of the channel on the current calendar day. -/
def get_daily_volume (s : State) (channel_id : Nat) (now : Nat) : ℤ :=
  ((s.trades.filter (fun t => t.channelId == channel_id && dayOf t.timestamp == dayOf now)).map
    (fun t => t.quantity)).sum

/-- record_trade mirrors Market.record_trade (INSERT INTO trades). -/
def record_trade (s : State) (channel_id buyer_id seller_id : Nat) (price : ℚ)
    (quantity : ℤ) (now : Nat) : State :=
  { s with trades := s.trades ++ [⟨channel_id, buyer_id, seller_id, price, quantity, now⟩] }

/-- record_price mirrors Market.record_price (INSERT INTO price_history). -/
def record_price (s : State) (channel_id : Nat) (price : ℚ) (now : Nat) : State :=
  { s with priceHistory := s.priceHistory ++ [(channel_id, now, price)] }

/-- get_dividend_pct mirrors Market.get_dividend_pct: the per-guild setting,
defaulting to 0.10. -/
def get_dividend_pct (s : State) (guild_id : Nat) : ℚ :=
  match s.marketSettings guild_id with
  | some pct => pct
  | none => 1/10

/-- compute_fair_price mirrors the static method Market.compute_fair_price. -/
def compute_fair_price (old_fair estimated_revenue last_revenue : ℚ) : ℚ :=
  if last_revenue ≤ 0 then old_fair
  else
    let ratio := estimated_revenue / last_revenue
    let new_fair := old_fair * (1 + MM_ALPHA * (ratio - 1))
    let lower := old_fair * (1 - MM_MAX_WEEKLY_MOVE)
    let upper := old_fair * (1 + MM_MAX_WEEKLY_MOVE)
    max lower (min upper new_fair)

/-- compute_spread_and_skew mirrors the static method
Market.compute_spread_and_skew. -/
def compute_spread_and_skew (fair_price volatility : ℚ) (inventory daily_volume : ℤ)
    (total_shares : ℤ) : ℚ × ℚ :=
  let volume_target := MM_TARGET_INVENTORY_PCT * ((max daily_volume 100 : ℤ) : ℚ)
  let supply_target := MM_TARGET_INVENTORY_PCT * (total_shares : ℚ)
  let target_inv := max volume_target supply_target
  let inv_dev := ((inventory : ℚ) - target_inv) / max target_inv 1
  let a := max 1 (min 2 (MM_A * (350 / ((max daily_volume 1 : ℤ) : ℚ))))
  let spread0 := MM_BASE_SPREAD * (a * volatility + MM_B * |inv_dev|) + MM_C * inv_dev ^ 2
  let spread := max spread0 (fair_price * (5/1000))
  let skew := -MM_K * inv_dev * fair_price
  (spread, skew)

/-- execute_trade mirrors Market.execute_trade: delivery of shares to the
buyer and cash to the seller of one fill.  Cash and shares of non-MM
participants were already reserved at order placement, so the buyer leg only
delivers shares and the seller leg only delivers cash; the MM settles both
legs directly against its mm_state row.  The seller's cash credit passes
through Python int(), i.e. truncQ.  Afterwards the trade and a price point
are recorded and the fair price is nudged toward the trade price. -/
def execute_trade (s : State) (channel_id buyer_id seller_id : Nat) (price : ℚ)
    (quantity : ℤ) (now : Nat) : State :=
  let cost := price * (quantity : ℚ)
  let s1 :=
    if buyer_id = MM_USER_ID then
      updateMMState s channel_id
        (fun m => { m with cash := m.cash - cost, inventory := m.inventory + quantity })
    else
      update_holdings s buyer_id channel_id quantity (some price)
  let s2 :=
    if seller_id = MM_USER_ID then
      updateMMState s1 channel_id
        (fun m => { m with cash := m.cash + cost, inventory := m.inventory - quantity })
    else
      update_cash s1 seller_id (truncQ cost)
  let s3 := record_trade s2 channel_id buyer_id seller_id price quantity now
  let s4 := record_price s3 channel_id price now
  match s4.mmState channel_id with
  | none => s4
  | some mm =>
      let nudged := mm.fairPrice + MM_TRADE_IMPACT * (price - mm.fairPrice)
      updateCompany (updateMMState s4 channel_id (fun m => { m with fairPrice := nudged }))
        channel_id (fun c => { c with fairPrice := nudged })

/-- askPriority is the ORDER BY price ASC, created_at ASC ordering used to
select resting sells for an incoming buy. -/
def askPriority (a b : Order) : Prop :=
  a.price < b.price ∨ (a.price = b.price ∧ a.createdAt ≤ b.createdAt)

/-- bidPriority is the ORDER BY price DESC, created_at ASC ordering used to
select resting buys for an incoming sell. -/
def bidPriority (a b : Order) : Prop :=
  b.price < a.price ∨ (a.price = b.price ∧ a.createdAt ≤ b.createdAt)

instance : DecidableRel askPriority := fun a b => by unfold askPriority; infer_instance

instance : DecidableRel bidPriority := fun a b => by unfold bidPriority; infer_instance

instance : IsTotal Order askPriority :=
  ⟨fun a b => by
    unfold askPriority
    rcases lt_trichotomy a.price b.price with h | h | h
    · exact Or.inl (Or.inl h)
    · rcases Nat.le_total a.createdAt b.createdAt with h2 | h2
      · exact Or.inl (Or.inr ⟨h, h2⟩)
      · exact Or.inr (Or.inr ⟨h.symm, h2⟩)
    · exact Or.inr (Or.inl h)⟩

instance : IsTrans Order askPriority :=
  ⟨fun a b c hab hbc => by
    unfold askPriority at *
    rcases hab with h1 | ⟨h1, h1t⟩ <;> rcases hbc with h2 | ⟨h2, h2t⟩
    · exact Or.inl (h1.trans h2)
    · exact Or.inl (h2 ▸ h1)
    · exact Or.inl (h1 ▸ h2)
    · exact Or.inr ⟨h1.trans h2, h1t.trans h2t⟩⟩

instance : IsTotal Order bidPriority :=
  ⟨fun a b => by
    unfold bidPriority
    rcases lt_trichotomy a.price b.price with h | h | h
    · exact Or.inr (Or.inl h)
    · rcases Nat.le_total a.createdAt b.createdAt with h2 | h2
      · exact Or.inl (Or.inr ⟨h, h2⟩)
      · exact Or.inr (Or.inr ⟨h.symm, h2⟩)
    · exact Or.inl (Or.inl h)⟩

instance : IsTrans Order bidPriority :=
  ⟨fun a b c hab hbc => by
    unfold bidPriority at *
    rcases hab with h1 | ⟨h1, h1t⟩ <;> rcases hbc with h2 | ⟨h2, h2t⟩
    · exact Or.inl (h2.trans h1)
    · exact Or.inl (h2 ▸ h1)
    · exact Or.inl (h1 ▸ h2)
    · exact Or.inr ⟨h1.trans h2, h1t.trans h2t⟩⟩

/-- eligible_asks is the snapshot query of match_orders for an incoming buy:
resting sells of the channel priced at or below the incoming limit,
excluding the incoming order itself, ordered by price then creation time. -/
def eligible_asks (s : State) (channel_id : Nat) (limit : ℚ) (order_id : Nat) : List Order :=
  List.insertionSort askPriority
    (s.orders.filter (fun o =>
      o.channelId == channel_id && o.side == Side.sell && decide (o.price ≤ limit) &&
        o.id != order_id))

/-- eligible_bids is the snapshot query of match_orders for an incoming sell:
resting buys of the channel priced at or above the incoming limit,
excluding the incoming order itself, ordered by descending price then
creation time. -/
def eligible_bids (s : State) (channel_id : Nat) (limit : ℚ) (order_id : Nat) : List Order :=
  List.insertionSort bidPriority
    (s.orders.filter (fun o =>
      o.channelId == channel_id && o.side == Side.buy && decide (limit ≤ o.price) &&
        o.id != order_id))

/-- Fill is one entry of the fills list returned by match_orders. -/
structure Fill where
  price : ℚ
  quantity : ℤ
  counterparty : Nat
deriving DecidableEq, Repr

/-- delete_order models DELETE FROM orders WHERE id = ?. -/
def delete_order (s : State) (order_id : Nat) : State :=
  { s with orders := s.orders.filter (fun o => o.id != order_id) }

/-- set_remaining models UPDATE orders SET remaining = ? WHERE id = ?. -/
def set_remaining (s : State) (order_id : Nat) (r : ℤ) : State :=
  { s with orders :=
      s.orders.map (fun o => if o.id = order_id then { o with remaining := r } else o) }

/-- match_loop is the fill loop of Market.match_orders over the snapshot of
eligible resting orders.  It carries the incoming order's remaining quantity
and the fills accumulated so far; the loop breaks as soon as the incoming
remaining is exhausted.  Besides the source's effects it appends the two
(order id, filled quantity) pairs of every fill to the ghost fillLog. -/
def match_loop (channel_id taker_id : Nat) (takerIsBuyer : Bool) (taker_oid : Nat)
    (now : Nat) : List Order → State → ℤ → List Fill → State × ℤ × List Fill
  | [], s, remaining, fills => (s, remaining, fills)
  | a :: rest, s, remaining, fills =>
    if remaining ≤ 0 then (s, remaining, fills)
    else
      let fill_qty := min remaining a.remaining
      let s1 :=
        if takerIsBuyer then
          execute_trade s channel_id taker_id a.userId a.price fill_qty now
        else
          execute_trade s channel_id a.userId taker_id a.price fill_qty now
      let s2 := { s1 with fillLog := s1.fillLog ++ [(taker_oid, fill_qty), (a.id, fill_qty)] }
      let new_rem := a.remaining - fill_qty
      let s3 := if new_rem ≤ 0 then delete_order s2 a.id else set_remaining s2 a.id new_rem
      match_loop channel_id taker_id takerIsBuyer taker_oid now rest s3
        (remaining - fill_qty) (fills ++ [⟨a.price, fill_qty, a.userId⟩])

/-- mm_quote_prices is the quote derivation of Market.refresh_mm_quotes
(source lines bid = max(fair - spread/2 + skew, 0.01) and
ask = max(fair + spread/2 + skew, bid + 0.01)). -/
def mm_quote_prices (fair_price spread skew : ℚ) : ℚ × ℚ :=
  let bid := max (fair_price - spread / 2 + skew) (1/100)
  let ask := max (fair_price + spread / 2 + skew) (bid + 1/100)
  (bid, ask)

/-- insert_order models INSERT INTO orders with the AUTOINCREMENT id
counter advancing. -/
def insert_order (s : State) (o : Order) : State :=
  { s with orders := s.orders ++ [o], nextOrderId := s.nextOrderId + 1 }

/-- requoted_fair restates the fair price stored by refresh_mm_quotes: the
clamped revenue-driven update of the MM fair price, floored at 0.01.  It is
introduced so that specifications can name the value; refresh_mm_quotes
computes the same expression. -/
def requoted_fair (env : Env) (s : State) (channel_id : Nat) (co : Company)
    (mm : MMState) : ℚ :=
  let accumulated :=
    match s.channelRevenue channel_id env.weekStart with
    | some r => r.accumulated
    | none => 0
  let days_elapsed : Nat := max (dayOf env.now - dayOf env.weekStart) 1
  let estimated_revenue := (accumulated / (days_elapsed : ℚ)) * 7
  max (compute_fair_price mm.fairPrice estimated_revenue co.lastRevenue) (1/100)

/-- refresh_mm_quotes mirrors Market.refresh_mm_quotes: recompute volatility
(env input, see Env), estimate the week's revenue pro rata, update the fair
price (floored at 0.01), derive spread and skew, cancel all MM orders of the
channel and insert at most one fresh bid and one fresh ask, then store the
new fair price in mm_state and companies. -/
def refresh_mm_quotes (env : Env) (s : State) (channel_id : Nat) : State :=
  match s.companies channel_id with
  | none => s
  | some company =>
    match s.mmState channel_id with
    | none => s
    | some mm =>
      let volatility := env.volatility
      let accumulated :=
        match s.channelRevenue channel_id env.weekStart with
        | some r => r.accumulated
        | none => 0
      let days_elapsed : Nat := max (dayOf env.now - dayOf env.weekStart) 1
      let estimated_revenue := (accumulated / (days_elapsed : ℚ)) * 7
      let fair_price := max (compute_fair_price mm.fairPrice estimated_revenue
        company.lastRevenue) (1/100)
      let daily_volume := get_daily_volume s channel_id env.now
      let ss := compute_spread_and_skew fair_price volatility mm.inventory daily_volume
        company.totalShares
      let quotes := mm_quote_prices fair_price ss.1 ss.2
      let bid := quotes.1
      let ask := quotes.2
      let s1 := cancel_mm_orders s channel_id
      let bid_qty : ℤ := if bid > 0 then min 100 (truncQ (mm.cash / bid)) else 0
      let s2 :=
        if bid_qty > 0 then
          insert_order s1 ⟨s1.nextOrderId, company.guildId, channel_id, MM_USER_ID,
            Side.buy, round2 bid, bid_qty, bid_qty, true, env.now⟩
        else s1
      let ask_qty : ℤ := min 100 mm.inventory
      let s3 :=
        if ask_qty > 0 then
          insert_order s2 ⟨s2.nextOrderId, company.guildId, channel_id, MM_USER_ID,
            Side.sell, round2 ask, ask_qty, ask_qty, true, env.now⟩
        else s2
      let s4 := updateMMState s3 channel_id (fun m =>
        { m with
          fairPrice := fair_price
          volatility := volatility
          lastQuoteTime := env.now })
      updateCompany s4 channel_id (fun c => { c with fairPrice := fair_price })

/-- match_orders mirrors Market.match_orders: look up the incoming order,
run the fill loop against the snapshot of eligible resting orders, then
update or delete the incoming order, and refresh the MM quotes when any
fill happened. -/
def match_orders (env : Env) (s : State) (channel_id new_order_id : Nat) :
    State × List Fill :=
  match s.orders.find? (fun o => o.id == new_order_id) with
  | none => (s, [])
  | some ord =>
    let res :=
      if ord.side = Side.buy then
        match_loop channel_id ord.userId true new_order_id env.now
          (eligible_asks s channel_id ord.price new_order_id) s ord.remaining []
      else
        match_loop channel_id ord.userId false new_order_id env.now
          (eligible_bids s channel_id ord.price new_order_id) s ord.remaining []
    let s2 :=
      if res.2.1 ≤ 0 then delete_order res.1 new_order_id
      else set_remaining res.1 new_order_id res.2.1
    if res.2.2.isEmpty then (s2, res.2.2) else (refresh_mm_quotes env s2 channel_id, res.2.2)

/-- place_limit_order mirrors Market.place_limit_order: insert the order with
remaining = quantity and the price rounded to two decimals, then run
matching.  Returns the new state, the order id and the fills. -/
def place_limit_order (env : Env) (s : State) (guild_id channel_id user_id : Nat)
    (side : Side) (price : ℚ) (quantity : ℤ) (is_mm : Bool) :
    State × Nat × List Fill :=
  let oid := s.nextOrderId
  let s1 := { s with
    orders := s.orders ++ [⟨oid, guild_id, channel_id, user_id, side, round2 price,
      quantity, quantity, is_mm, env.now⟩],
    nextOrderId := oid + 1 }
  let res := match_orders env s1 channel_id oid
  (res.1, oid, res.2)

/-- settle_weekly_revenue mirrors Market.settle_weekly_revenue: read the
accumulated revenue of the current week (never reset by this function),
apply the noise factor, pay each non-MM holder a truncated pro-rata share of
the dividend pool, update last_revenue in companies and channel_revenue,
re-price from the revenue ratio when the previously settled revenue was
positive, and finally refresh the MM quotes.  The Discord announcement at
the end of the source function is presentation only and is omitted. -/
def settle_weekly_revenue (env : Env) (s : State) (channel_id : Nat) : State :=
  match s.companies channel_id with
  | none => s
  | some company =>
    let accumulated :=
      match s.channelRevenue channel_id env.weekStart with
      | some r => r.accumulated
      | none => 0
    let actual_revenue := accumulated * env.noise
    let dividend_pct := get_dividend_pct s company.guildId
    let dividends_total := actual_revenue * dividend_pct
    let holders := s.holdings.filter (fun h =>
      h.channelId == channel_id && h.userId != MM_USER_ID && decide (h.quantity > 0))
    let total_player_shares := (holders.map (fun h => h.quantity)).sum
    let s1 :=
      if total_player_shares > 0 ∧ dividends_total > 0 then
        holders.foldl (fun acc h =>
          let share_pct := (h.quantity : ℚ) / (company.totalShares : ℚ)
          let payout := truncQ (dividends_total * share_pct)
          if payout > 0 then update_cash (ensure_economy_row acc h.userId) h.userId payout
          else acc) s
      else s
    let s2 := updateCompany s1 channel_id (fun c => { c with lastRevenue := actual_revenue })
    let s3 := { s2 with channelRevenue := fun c w =>
      if c = channel_id ∧ w = env.weekStart then
        (s2.channelRevenue c w).map (fun r : CRev => { r with lastRevenue := actual_revenue })
      else s2.channelRevenue c w }
    let s4 :=
      match s3.mmState channel_id with
      | some mm =>
        if company.lastRevenue > 0 then
          let new_fair := compute_fair_price mm.fairPrice actual_revenue company.lastRevenue
          updateCompany (updateMMState s3 channel_id (fun m => { m with fairPrice := new_fair }))
            channel_id (fun c => { c with fairPrice := new_fair })
        else s3
      | none => s3
    refresh_mm_quotes env s4 channel_id

/-- CancelErr is the failure taxonomy of the cancel command. -/
inductive CancelErr where
  | notFound
  | notOwner
deriving DecidableEq, Repr

/-- Refund is what a successful cancel returns to its owner: reserved cash
for a buy order, reserved shares for a sell order. -/
inductive Refund where
  | cash (amount : ℤ)
  | shares (qty : ℤ)
deriving DecidableEq, Repr

/-- cancel mirrors the cancel command: look up the order; fail with notFound
or notOwner without touching any state; on success credit the truncated cash
reservation (buy) or restore the reserved shares (sell), then delete the
order. -/
def cancel (s : State) (order_id requester : Nat) : State × Except CancelErr Refund :=
  match s.orders.find? (fun o => o.id == order_id) with
  | none => (s, Except.error CancelErr.notFound)
  | some o =>
    if o.userId ≠ requester then (s, Except.error CancelErr.notOwner)
    else if o.side = Side.buy then
      let refund := truncQ (o.price * (o.remaining : ℚ))
      (delete_order (update_cash s o.userId refund) order_id, Except.ok (Refund.cash refund))
    else
      (delete_order (update_holdings s o.userId o.channelId o.remaining none) order_id,
        Except.ok (Refund.shares o.remaining))

/-- Op enumerates the operations a client can drive the engine with: placing
a limit or market order (matching inclusive), cancelling a resting order,
the hourly MM re-quote, and the weekly settlement. -/
inductive Op where
  | place (env : Env) (guild_id channel_id user_id : Nat) (side : Side) (price : ℚ)
      (quantity : ℤ) (is_mm : Bool)
  | cancelOrder (order_id requester : Nat)
  | requote (env : Env) (channel_id : Nat)
  | settle (env : Env) (channel_id : Nat)

/-- step runs one operation against the state. -/
def step (s : State) : Op → State
  | Op.place env g ch u sd p q mm => (place_limit_order env s g ch u sd p q mm).1
  | Op.cancelOrder oid req => (cancel s oid req).1
  | Op.requote env ch => refresh_mm_quotes env s ch
  | Op.settle env ch => settle_weekly_revenue env s ch

/-- run folds a list of operations over a state. -/
def run (s : State) (ops : List Op) : State := ops.foldl step s

/-- OpOK states the validation the command layer performs before reaching the
engine: submitted orders have positive quantity (the buy/sell commands reject
quantity below 1, and refresh only inserts quotes with positive size). -/
def OpOK : Op → Prop
  | Op.place _ _ _ _ _ _ q _ => 0 < q
  | Op.cancelOrder _ _ => True
  | Op.requote _ _ => True
  | Op.settle _ _ => True

instance instDecOpOK : (op : Op) → Decidable (OpOK op)
  | Op.place _ _ _ _ _ _ q _ => inferInstanceAs (Decidable (0 < q))
  | Op.cancelOrder _ _ => inferInstanceAs (Decidable True)
  | Op.requote _ _ => inferInstanceAs (Decidable True)
  | Op.settle _ _ => inferInstanceAs (Decidable True)

/-- mkInit builds a state whose order book, ghost fill log and order id
counter are fresh (SQLite AUTOINCREMENT starts at 1), with arbitrary
contents of the remaining tables. -/
def mkInit (companies : Nat → Option Company) (holdings : List HoldingRow)
    (economy : List EconRow) (mmS : Nat → Option MMState) (trades : List Trade)
    (channelRevenue : Nat → Nat → Option CRev) (marketSettings : Nat → Option ℚ)
    (priceHistory : List (Nat × Nat × ℚ)) : State :=
  ⟨companies, [], holdings, economy, mmS, trades, channelRevenue, marketSettings,
    priceHistory, 1, []⟩

/-- sumFillsFor sums the ghost-logged filled quantities of one order id. -/
def sumFillsFor (log : List (Nat × ℤ)) (i : Nat) : ℤ :=
  ((log.filter (fun e => e.1 == i)).map (fun e => e.2)).sum

/-- mmCashOf projects the MM cash of one channel, 0 when the row is absent. -/
def mmCashOf (s : State) (channel_id : Nat) : ℚ :=
  match s.mmState channel_id with
  | some m => m.cash
  | none => 0

/-- mmInvOf projects the MM inventory of one channel, 0 when absent. -/
def mmInvOf (s : State) (channel_id : Nat) : ℤ :=
  match s.mmState channel_id with
  | some m => m.inventory
  | none => 0

/-- mmFairOf projects the MM fair price of one channel, 0 when absent. -/
def mmFairOf (s : State) (channel_id : Nat) : ℚ :=
  match s.mmState channel_id with
  | some m => m.fairPrice
  | none => 0

/-- companyFairOf projects the company fair price of one channel, 0 when
absent. -/
def companyFairOf (s : State) (channel_id : Nat) : ℚ :=
  match s.companies channel_id with
  | some c => c.fairPrice
  | none => 0


/-- BookInv is the order-book invariant of the spec: every resting order has
0 <= remaining <= quantity and its total ghost-logged fills equal
quantity - remaining; order ids are unique and below the id counter, and
every logged fill names an id below the counter. -/
def BookInv (s : State) : Prop :=
  (∀ o ∈ s.orders, 0 ≤ o.remaining ∧ o.remaining ≤ o.quantity ∧
    sumFillsFor s.fillLog o.id = o.quantity - o.remaining ∧ o.id < s.nextOrderId) ∧
  (s.orders.map (fun o => o.id)).Nodup ∧
  (∀ e ∈ s.fillLog, e.1 < s.nextOrderId)

/-- envT is a sample environment used by concrete evaluations. -/
def envT : Env := ⟨300, 0, 1/100, 1⟩

/-- sTrade is a concrete state for exercising execute_trade: market maker on
channel 1 with 1000 cash and 10 shares, and user 2 holding an economy row. -/
def sTrade : State :=
  { companies := fun _ => none
    orders := []
    holdings := []
    economy := [⟨2, 0⟩]
    mmState := fun c => if c = 1 then some ⟨1000, 10, 100, 1/100, 0⟩ else none
    trades := []
    channelRevenue := fun _ _ => none
    marketSettings := fun _ => none
    priceHistory := []
    nextOrderId := 1
    fillLog := [] }

/-- sNudge is a concrete state whose market-maker fair price on channel 1 is
positive but below the minimum tick. -/
def sNudge : State :=
  { companies := fun c => if c = 1 then some ⟨1, 100, 1/200, 0, 1000, 1/10, 0⟩ else none
    orders := []
    holdings := []
    economy := [⟨2, 0⟩]
    mmState := fun c => if c = 1 then some ⟨1000, 10, 1/200, 1/100, 0⟩ else none
    trades := []
    channelRevenue := fun _ _ => none
    marketSettings := fun _ => none
    priceHistory := []
    nextOrderId := 1
    fillLog := [] }

/-- sCancel is a concrete state with a resting buy order (id 1, owner 5,
price 1.50, 2 ordered, 1 remaining) and a resting sell order (id 2, owner 6,
3 remaining), with fitting economy and holdings rows. -/
def sCancel : State :=
  { companies := fun _ => none
    orders := [⟨1, 1, 1, 5, Side.buy, 3/2, 2, 1, false, 0⟩,
               ⟨2, 1, 1, 6, Side.sell, 2, 3, 3, false, 1⟩]
    holdings := [⟨6, 1, 4, 2⟩]
    economy := [⟨5, 0⟩]
    mmState := fun _ => none
    trades := []
    channelRevenue := fun _ _ => none
    marketSettings := fun _ => none
    priceHistory := []
    nextOrderId := 3
    fillLog := [] }

/-- sBook is a concrete book for the matching scenarios: two resting sells
(5 shares at 99, older, and 5 shares at 100, newer) and an incoming buy of
10 shares limited at 101 (order id 3). -/
def sBook : State :=
  { companies := fun _ => none
    orders := [⟨1, 1, 1, 10, Side.sell, 99, 5, 5, false, 100⟩,
               ⟨2, 1, 1, 11, Side.sell, 100, 5, 5, false, 200⟩,
               ⟨3, 1, 1, 12, Side.buy, 101, 10, 10, false, 300⟩]
    holdings := []
    economy := []
    mmState := fun _ => none
    trades := []
    channelRevenue := fun _ _ => none
    marketSettings := fun _ => none
    priceHistory := []
    nextOrderId := 4
    fillLog := [] }

/-- sSettle is a concrete state for settlement: company on channel 1 with
1000 total shares and no previously settled revenue, the MM holding 1000
shares, player 7 holding 100 shares, and 1000 units of accumulated revenue
for the week starting at time 0. -/
def sSettle : State :=
  { companies := fun c => if c = 1 then some ⟨1, 100, 100, 0, 1000, 1/10, 0⟩ else none
    orders := []
    holdings := [⟨0, 1, 1000, 100⟩, ⟨7, 1, 100, 100⟩]
    economy := [⟨7, 0⟩]
    mmState := fun c => if c = 1 then some ⟨30000, 1000, 100, 1/100, 0⟩ else none
    trades := []
    channelRevenue := fun c w => if c = 1 ∧ w = 0 then some ⟨1000, 0⟩ else none
    marketSettings := fun _ => none
    priceHistory := []
    nextOrderId := 1
    fillLog := [] }

/-- envS is the settlement environment: six days into the week, unit noise. -/
def envS : Env := ⟨6 * 86400, 0, 1/100, 1⟩

theorem sumFillsFor_append (l₁ l₂ : List (Nat × ℤ)) (i : Nat) :
    sumFillsFor (l₁ ++ l₂) i = sumFillsFor l₁ i + sumFillsFor l₂ i := by
  simp [sumFillsFor, List.filter_append]

theorem sumFillsFor_pair (j : Nat) (q : ℤ) (i : Nat) :
    sumFillsFor [(j, q)] i = if j = i then q else 0 := by
  by_cases h : j = i <;> simp [sumFillsFor, h]

theorem sumFillsFor_eq_zero {l : List (Nat × ℤ)} {i : Nat}
    (h : ∀ e ∈ l, e.1 ≠ i) : sumFillsFor l i = 0 := by
  have : l.filter (fun e => e.1 == i) = [] := by
    rw [List.filter_eq_nil_iff]
    intro e he
    simpa using h e he
  simp [sumFillsFor, this]

theorem find?_map_comm {α : Type} (g : α → α) (p : α → Bool) (l : List α)
    (hp : ∀ a, p (g a) = p a) :
    (l.map g).find? p = (l.find? p).map g := by
  induction l with
  | nil => rfl
  | cons a t ih =>
      cases h : p a with
      | true => simp [List.find?_cons, hp a, h]
      | false => simpa [List.find?_cons, hp a, h] using ih

theorem find?_filter_compat {α : Type} (q p : α → Bool) (l : List α)
    (himp : ∀ a, p a = true → q a = true) :
    (l.filter q).find? p = l.find? p := by
  induction l with
  | nil => rfl
  | cons a t ih =>
      cases hq : q a with
      | true =>
          cases h : p a with
          | true => simp [List.filter_cons, hq, List.find?_cons, h]
          | false => simpa [List.filter_cons, hq, List.find?_cons, h] using ih
      | false =>
          have hpa : p a = false := by
            cases h : p a with
            | true => rw [himp a h] at hq; cases hq
            | false => rfl
          simpa [List.filter_cons, hq, List.find?_cons, hpa] using ih

theorem find_cash_credit_present {l : List EconRow} {u : Nat} (a : ℤ)
    (h : l.any (fun r => r.userId == u) = true) :
    find_cash (econ_credit l u a) u = find_cash l u + a := by
  have hp : ∀ r : EconRow,
      ((if r.userId = u then { r with cash := r.cash + a } else r).userId == u)
        = (r.userId == u) := by
    intro r
    by_cases hr : r.userId = u <;> simp [hr]
  unfold find_cash econ_credit
  rw [find?_map_comm _ _ _ hp]
  obtain ⟨r, hrmem, hru⟩ := List.any_eq_true.mp h
  have : (l.find? (fun r => r.userId == u)).isSome := by
    rw [List.find?_isSome]
    exact ⟨r, hrmem, hru⟩
  obtain ⟨r0, hr0⟩ := Option.isSome_iff_exists.mp this
  have hr0u : r0.userId = u := by simpa using List.find?_some hr0
  simp [hr0, hr0u]

theorem econ_credit_absent {l : List EconRow} {u : Nat} (a : ℤ)
    (h : l.any (fun r => r.userId == u) = false) :
    econ_credit l u a = l := by
  unfold econ_credit
  have hall := List.any_eq_false.mp h
  have : ∀ r ∈ l, (if r.userId = u then { r with cash := r.cash + a } else r) = r := by
    intro r hr
    have : ¬ r.userId = u := by simpa using hall r hr
    simp [this]
  rw [List.map_congr_left this]
  exact List.map_id l

theorem find_cash_credit_other {l : List EconRow} {u u' : Nat} (a : ℤ) (h : u' ≠ u) :
    find_cash (econ_credit l u a) u' = find_cash l u' := by
  have hp : ∀ r : EconRow,
      ((if r.userId = u then { r with cash := r.cash + a } else r).userId == u')
        = (r.userId == u') := by
    intro r
    by_cases hr : r.userId = u <;> simp [hr]
  unfold find_cash econ_credit
  rw [find?_map_comm _ _ _ hp]
  cases hf : l.find? (fun r => r.userId == u') with
  | none => rfl
  | some r =>
      have hru : r.userId = u' := by simpa using List.find?_some hf
      have : ¬ r.userId = u := fun hc => h (hru ▸ hc)
      simp [this]

theorem find_cash_ensure_self (l : List EconRow) (u : Nat) :
    find_cash (econ_ensure l u) u = find_cash l u := by
  unfold econ_ensure
  split
  · rfl
  · rename_i h
    have hn : l.find? (fun r => r.userId == u) = none := by
      rw [List.find?_eq_none]
      intro r hr
      have := List.any_eq_false.mp (Bool.eq_false_iff.mpr h) r hr
      simpa using this
    simp [find_cash, List.find?_append, hn]

theorem econ_ensure_any (l : List EconRow) (u : Nat) :
    (econ_ensure l u).any (fun r => r.userId == u) = true := by
  unfold econ_ensure
  split
  · assumption
  · simp

theorem find_cash_ensure_other {l : List EconRow} {u u' : Nat} (h : u' ≠ u) :
    find_cash (econ_ensure l u) u' = find_cash l u' := by
  unfold econ_ensure
  split
  · rfl
  · have hb : ((⟨u, 0⟩ : EconRow).userId == u') = false := by simpa using h.symm
    unfold find_cash
    rw [List.find?_append]
    cases hf : l.find? (fun r => r.userId == u') with
    | some r => rfl
    | none => simp [List.find?_cons, hb]

theorem find_holding_upsert_self (l : List HoldingRow) (row : HoldingRow) :
    find_holding (upsertHolding l row) row.userId row.channelId =
      (row.quantity, row.avgCost) := by
  unfold upsertHolding
  split
  · rename_i h
    have hp : ∀ r : HoldingRow,
        (((if r.userId = row.userId ∧ r.channelId = row.channelId then row else r).userId
            == row.userId) &&
          ((if r.userId = row.userId ∧ r.channelId = row.channelId then row else r).channelId
            == row.channelId))
          = (r.userId == row.userId && r.channelId == row.channelId) := by
      intro r
      by_cases hr : r.userId = row.userId ∧ r.channelId = row.channelId
      · simp [hr, hr.1, hr.2]
      · simp [hr]
    unfold find_holding
    rw [find?_map_comm _ _ _ hp]
    obtain ⟨r, hrmem, hru⟩ := List.any_eq_true.mp h
    have : (l.find? (fun r => r.userId == row.userId && r.channelId == row.channelId)).isSome := by
      rw [List.find?_isSome]
      exact ⟨r, hrmem, hru⟩
    obtain ⟨r0, hr0⟩ := Option.isSome_iff_exists.mp this
    have hr0k : r0.userId = row.userId ∧ r0.channelId = row.channelId := by
      simpa using List.find?_some hr0
    simp [hr0, hr0k]
  · rename_i h
    have hn : l.find? (fun r => r.userId == row.userId && r.channelId == row.channelId)
        = none := by
      rw [List.find?_eq_none]
      intro r hr
      have := List.any_eq_false.mp (Bool.eq_false_iff.mpr h) r hr
      simpa using this
    simp [find_holding, List.find?_append, hn]

theorem find_holding_upsert_other (l : List HoldingRow) (row : HoldingRow)
    (u' ch' : Nat) (h : ¬ (u' = row.userId ∧ ch' = row.channelId)) :
    find_holding (upsertHolding l row) u' ch' = find_holding l u' ch' := by
  have hrowb : (row.userId == u' && row.channelId == ch') = false := by
    rw [Bool.and_eq_false_iff]
    by_cases h1 : row.userId = u'
    · refine Or.inr (beq_eq_false_iff_ne.mpr ?_)
      exact fun h2 => h ⟨h1.symm, h2.symm⟩
    · exact Or.inl (beq_eq_false_iff_ne.mpr h1)
  unfold upsertHolding
  split
  · have hp : ∀ r : HoldingRow,
        (((if r.userId = row.userId ∧ r.channelId = row.channelId then row else r).userId
            == u') &&
          ((if r.userId = row.userId ∧ r.channelId = row.channelId then row else r).channelId
            == ch'))
          = (r.userId == u' && r.channelId == ch') := by
      intro r
      by_cases hr : r.userId = row.userId ∧ r.channelId = row.channelId
      · rw [if_pos hr, hrowb]
        rw [eq_comm, Bool.and_eq_false_iff]
        by_cases h1 : r.userId = u'
        · refine Or.inr (beq_eq_false_iff_ne.mpr ?_)
          exact fun h2 => h ⟨h1 ▸ hr.1, h2 ▸ hr.2⟩
        · exact Or.inl (beq_eq_false_iff_ne.mpr h1)
      · rw [if_neg hr]
    unfold find_holding
    rw [find?_map_comm _ _ _ hp]
    cases hf : l.find? (fun r => r.userId == u' && r.channelId == ch') with
    | none => rfl
    | some r =>
        have hrk : r.userId = u' ∧ r.channelId = ch' := by
          simpa using List.find?_some hf
        have : ¬ (r.userId = row.userId ∧ r.channelId = row.channelId) := by
          intro hc
          exact h ⟨hrk.1 ▸ hc.1, hrk.2 ▸ hc.2⟩
        simp [this]
  · unfold find_holding
    rw [List.find?_append]
    cases hf : l.find? (fun r => r.userId == u' && r.channelId == ch') with
    | some r => rfl
    | none => simp [List.find?_cons, hrowb]

theorem find_holding_filter_out (l : List HoldingRow) (u ch : Nat) :
    find_holding (l.filter (fun r => !(r.userId == u && r.channelId == ch))) u ch
      = (0, 0) := by
  unfold find_holding
  have hn : (l.filter (fun r => !(r.userId == u && r.channelId == ch))).find?
      (fun r => r.userId == u && r.channelId == ch) = none := by
    rw [List.find?_eq_none]
    intro r hr
    have := (List.mem_filter.mp hr).2
    simp only [Bool.not_eq_eq_eq_not, Bool.not_true] at this
    simp [this]
  rw [hn]

theorem find_holding_filter_other (l : List HoldingRow) (u ch u' ch' : Nat)
    (h : ¬ (u' = u ∧ ch' = ch)) :
    find_holding (l.filter (fun r => !(r.userId == u && r.channelId == ch))) u' ch'
      = find_holding l u' ch' := by
  unfold find_holding
  rw [find?_filter_compat]
  intro r hr
  have hrk : r.userId = u' ∧ r.channelId = ch' := by simpa using hr
  rw [Bool.not_eq_eq_eq_not, Bool.not_true, Bool.and_eq_false_iff]
  by_cases h1 : r.userId = u
  · refine Or.inr (beq_eq_false_iff_ne.mpr ?_)
    exact fun h2 => h ⟨h1 ▸ hrk.1.symm, h2 ▸ hrk.2.symm⟩
  · exact Or.inl (beq_eq_false_iff_ne.mpr h1)

theorem find_holding_update_self (l : List HoldingRow) (u ch : Nat) (d : ℤ)
    (p : Option ℚ) (h : 0 < (find_holding l u ch).1 + d) :
    (find_holding (holdings_update l u ch d p) u ch).1 =
      (find_holding l u ch).1 + d := by
  simp only [holdings_update]
  rw [if_neg (by omega)]
  rw [find_holding_upsert_self l]

theorem find_holding_update_delete (l : List HoldingRow) (u ch : Nat) (d : ℤ)
    (p : Option ℚ) (h : (find_holding l u ch).1 + d ≤ 0) :
    find_holding (holdings_update l u ch d p) u ch = (0, 0) := by
  simp only [holdings_update]
  rw [if_pos (by omega)]
  exact find_holding_filter_out l u ch

theorem find_holding_update_other (l : List HoldingRow) (u ch u' ch' : Nat) (d : ℤ)
    (p : Option ℚ) (h : ¬ (u' = u ∧ ch' = ch)) :
    find_holding (holdings_update l u ch d p) u' ch' = find_holding l u' ch' := by
  simp only [holdings_update]
  split
  · exact find_holding_filter_other l u ch u' ch' h
  · exact find_holding_upsert_other l _ u' ch' h

/-- C6: the revenue-driven fair-price update is hard-clamped: it returns the
old fair price when the previous revenue is non-positive; for a positive old
fair price the result always lies in [0.92 F, 1.08 F]; inside the clamp the
result is exactly F (1 + 0.3 (R / R_prev - 1)); outside, it saturates at the
corresponding clamp boundary. -/
theorem C6_fair_price_clamped (F R Rp : ℚ) :
    (Rp ≤ 0 → compute_fair_price F R Rp = F) ∧
    (0 < F → (92/100) * F ≤ compute_fair_price F R Rp ∧
      compute_fair_price F R Rp ≤ (108/100) * F) ∧
    (0 < Rp → (92/100) * F ≤ F * (1 + MM_ALPHA * (R / Rp - 1)) →
      F * (1 + MM_ALPHA * (R / Rp - 1)) ≤ (108/100) * F →
      compute_fair_price F R Rp = F * (1 + MM_ALPHA * (R / Rp - 1))) ∧
    (0 < F → 0 < Rp → (108/100) * F < F * (1 + MM_ALPHA * (R / Rp - 1)) →
      compute_fair_price F R Rp = (108/100) * F) ∧
    (0 < F → 0 < Rp → F * (1 + MM_ALPHA * (R / Rp - 1)) < (92/100) * F →
      compute_fair_price F R Rp = (92/100) * F) := by
  have hlo : F * (1 - MM_MAX_WEEKLY_MOVE) = (92/100) * F := by
    unfold MM_MAX_WEEKLY_MOVE; ring
  have hhi : F * (1 + MM_MAX_WEEKLY_MOVE) = (108/100) * F := by
    unfold MM_MAX_WEEKLY_MOVE; ring
  refine ⟨?_, ?_, ?_, ?_, ?_⟩
  · intro h
    simp [compute_fair_price, h]
  · intro hF
    have hle : (92/100) * F ≤ (108/100) * F := by nlinarith
    by_cases h : Rp ≤ 0
    · simp only [compute_fair_price, if_pos h]
      constructor <;> nlinarith
    · simp only [compute_fair_price, if_neg h, hlo, hhi]
      constructor
      · exact le_max_left _ _
      · exact max_le hle (min_le_left _ _)
  · intro hRp h1 h2
    have h : ¬ Rp ≤ 0 := not_le.mpr hRp
    simp only [compute_fair_price, if_neg h, hlo, hhi]
    rw [min_eq_right h2, max_eq_right h1]
  · intro hF hRp h1
    have h : ¬ Rp ≤ 0 := not_le.mpr hRp
    have hle : (92/100) * F ≤ (108/100) * F := by nlinarith
    simp only [compute_fair_price, if_neg h, hlo, hhi]
    rw [min_eq_left (le_of_lt h1), max_eq_right hle]
  · intro hF hRp h1
    have h : ¬ Rp ≤ 0 := not_le.mpr hRp
    have hle : (92/100) * F ≤ (108/100) * F := by nlinarith
    simp only [compute_fair_price, if_neg h, hlo, hhi]
    have hmin : min ((108/100) * F) (F * (1 + MM_ALPHA * (R / Rp - 1))) =
        F * (1 + MM_ALPHA * (R / Rp - 1)) := min_eq_right (by nlinarith)
    rw [hmin, max_eq_left (le_of_lt h1)]

/-- C6 witness: revenue doubling (ratio 2) against fair price 100 would move
the price by +30 percent uncapped; the hard clamp caps the result at 108. -/
theorem C6_fair_price_clamped_witness :
    (0 : ℚ) < 100 ∧ (0 : ℚ) < 100 ∧
    (108/100 : ℚ) * 100 < 100 * (1 + MM_ALPHA * ((200 : ℚ) / 100 - 1)) ∧
    compute_fair_price 100 200 100 = 108 := by
  have h := (C6_fair_price_clamped 100 200 100).2.2.2.1
    (by decide) (by decide) (by unfold MM_ALPHA; decide)
  refine ⟨by decide, by decide, by unfold MM_ALPHA; decide, ?_⟩
  rw [h]
  decide

theorem execute_trade_book (s : State) (ch b sl : Nat) (p : ℚ) (q : ℤ) (n : Nat) :
    (execute_trade s ch b sl p q n).orders = s.orders ∧
    (execute_trade s ch b sl p q n).fillLog = s.fillLog ∧
    (execute_trade s ch b sl p q n).nextOrderId = s.nextOrderId := by
  unfold execute_trade
  by_cases hb : b = MM_USER_ID <;> by_cases hs : sl = MM_USER_ID <;>
    simp only [hb, hs, if_pos, if_neg, update_holdings, update_cash, updateMMState,
      updateCompany, record_trade, record_price] <;>
    (try split) <;> simp

theorem execute_trade_holdings (s : State) (ch b sl : Nat) (p : ℚ) (q : ℤ) (n : Nat) :
    (execute_trade s ch b sl p q n).holdings =
      if b = MM_USER_ID then s.holdings else holdings_update s.holdings b ch q (some p) := by
  unfold execute_trade
  by_cases hb : b = MM_USER_ID <;> by_cases hs : sl = MM_USER_ID <;>
    simp only [hb, hs, if_pos, if_neg, update_holdings, update_cash, updateMMState,
      updateCompany, record_trade, record_price] <;>
    (try split) <;> simp [hb]

theorem execute_trade_economy (s : State) (ch b sl : Nat) (p : ℚ) (q : ℤ) (n : Nat) :
    (execute_trade s ch b sl p q n).economy =
      if sl = MM_USER_ID then s.economy
      else econ_credit s.economy sl (truncQ (p * (q : ℚ))) := by
  unfold execute_trade
  by_cases hb : b = MM_USER_ID <;> by_cases hs : sl = MM_USER_ID <;>
    simp only [hb, hs, if_pos, if_neg, update_holdings, update_cash, updateMMState,
      updateCompany, record_trade, record_price] <;>
    (try split) <;> simp [hs]

theorem execute_trade_trades (s : State) (ch b sl : Nat) (p : ℚ) (q : ℤ) (n : Nat) :
    (execute_trade s ch b sl p q n).trades = s.trades ++ [⟨ch, b, sl, p, q, n⟩] := by
  unfold execute_trade
  by_cases hb : b = MM_USER_ID <;> by_cases hs : sl = MM_USER_ID <;>
    simp only [hb, hs, if_pos, if_neg, update_holdings, update_cash, updateMMState,
      updateCompany, record_trade, record_price] <;>
    (try split) <;> simp

theorem execute_trade_mm_some (s : State) (ch b sl : Nat) (p : ℚ) (q : ℤ) (n : Nat)
    (mm : MMState) (h : s.mmState ch = some mm) :
    ∃ mm', (execute_trade s ch b sl p q n).mmState ch = some mm' ∧
      mm'.cash = mm.cash + (if b = MM_USER_ID then -(p * (q : ℚ)) else 0)
        + (if sl = MM_USER_ID then p * (q : ℚ) else 0) ∧
      mm'.inventory = mm.inventory + (if b = MM_USER_ID then q else 0)
        - (if sl = MM_USER_ID then q else 0) ∧
      mm'.fairPrice = mm.fairPrice + MM_TRADE_IMPACT * (p - mm.fairPrice) ∧
      (execute_trade s ch b sl p q n).companies ch =
        (s.companies ch).map (fun c => { c with fairPrice := mm'.fairPrice }) := by
  unfold execute_trade
  by_cases hb : b = MM_USER_ID <;> by_cases hs : sl = MM_USER_ID <;>
    simp only [hb, hs, if_pos, if_neg, update_holdings, update_cash, updateMMState,
      updateCompany, record_trade, record_price, h, Option.map_some', if_true,
      reduceIte] <;>
    refine ⟨_, rfl, ?_, ?_, ?_, ?_⟩ <;>
    simp [hb, hs] <;> ring_nf <;> try omega

/-- C2 amended: in execute_trade with positive quantity, the buyer side
receives exactly q shares (holdings for a non-MM buyer with a non-negative
prior position, inventory for the MM) and the MM legs move exactly p times q
in cash; but a non-MM seller is credited the truncated amount int(p times q)
— and only if an economy row exists, else nothing — and a non-MM seller's
share count does not change inside execute_trade (the shares were already
removed when the sell order reserved them); exactly one trade is recorded. -/
theorem C2_trade_delivery (s : State) (ch buyer seller : Nat) (p : ℚ) (q : ℤ) (n : Nat)
    (hq : 0 < q) :
    (buyer ≠ MM_USER_ID → 0 ≤ (get_holdings s buyer ch).1 →
      (get_holdings (execute_trade s ch buyer seller p q n) buyer ch).1
        = (get_holdings s buyer ch).1 + q) ∧
    (buyer = MM_USER_ID → ∀ mm, s.mmState ch = some mm → seller ≠ MM_USER_ID →
      ∃ mm', (execute_trade s ch buyer seller p q n).mmState ch = some mm' ∧
        mm'.cash = mm.cash - p * (q : ℚ) ∧ mm'.inventory = mm.inventory + q) ∧
    (seller = MM_USER_ID → ∀ mm, s.mmState ch = some mm → buyer ≠ MM_USER_ID →
      ∃ mm', (execute_trade s ch buyer seller p q n).mmState ch = some mm' ∧
        mm'.cash = mm.cash + p * (q : ℚ) ∧ mm'.inventory = mm.inventory - q) ∧
    (seller ≠ MM_USER_ID → s.economy.any (fun r => r.userId == seller) = true →
      get_cash (execute_trade s ch buyer seller p q n) seller
        = get_cash s seller + truncQ (p * (q : ℚ))) ∧
    (seller ≠ MM_USER_ID → s.economy.any (fun r => r.userId == seller) = false →
      (execute_trade s ch buyer seller p q n).economy = s.economy) ∧
    (seller ≠ MM_USER_ID → seller ≠ buyer →
      get_holdings (execute_trade s ch buyer seller p q n) seller ch
        = get_holdings s seller ch) ∧
    (execute_trade s ch buyer seller p q n).trades = s.trades ++ [⟨ch, buyer, seller, p, q, n⟩] := by
  refine ⟨?_, ?_, ?_, ?_, ?_, ?_, execute_trade_trades s ch buyer seller p q n⟩
  · intro hb hold
    have hh := execute_trade_holdings s ch buyer seller p q n
    rw [if_neg hb] at hh
    unfold get_holdings at *
    rw [hh]
    exact find_holding_update_self s.holdings buyer ch q (some p) (by omega)
  · intro hb mm hmm hs
    obtain ⟨mm', h1, h2, h3, _, _⟩ := execute_trade_mm_some s ch buyer seller p q n mm hmm
    rw [if_pos hb] at h2 h3
    rw [if_neg hs] at h2 h3
    exact ⟨mm', h1, by linarith, by omega⟩
  · intro hs mm hmm hb
    obtain ⟨mm', h1, h2, h3, _, _⟩ := execute_trade_mm_some s ch buyer seller p q n mm hmm
    rw [if_neg hb] at h2 h3
    rw [if_pos hs] at h2 h3
    exact ⟨mm', h1, by linarith, by omega⟩
  · intro hs hrow
    have he := execute_trade_economy s ch buyer seller p q n
    rw [if_neg hs] at he
    unfold get_cash at *
    rw [he]
    exact find_cash_credit_present _ hrow
  · intro hs hrow
    have he := execute_trade_economy s ch buyer seller p q n
    rw [if_neg hs] at he
    rw [he]
    exact econ_credit_absent _ hrow
  · intro hs hsb
    have hh := execute_trade_holdings s ch buyer seller p q n
    unfold get_holdings
    rw [hh]
    split
    · rfl
    · exact find_holding_update_other s.holdings buyer ch seller ch q (some p)
        (fun hc => hsb hc.1)

/-- C2 witness: a non-MM buyer (user 3) takes 2 shares at price 7 from the
MM on channel 1 of sTrade; the buyer gains exactly 2 shares and the MM cash
and inventory move by exactly 14 and 2. -/
theorem C2_trade_delivery_witness :
    (0 : ℤ) < 2 ∧
    (get_holdings (execute_trade sTrade 1 3 MM_USER_ID 7 2 9) 3 1).1
      = (get_holdings sTrade 3 1).1 + 2 ∧
    (execute_trade sTrade 1 3 MM_USER_ID 7 2 9).trades
      = sTrade.trades ++ [⟨1, 3, MM_USER_ID, 7, 2, 9⟩] := by
  have h := C2_trade_delivery sTrade 1 3 MM_USER_ID 7 2 9 (by decide)
  exact ⟨by decide, h.1 (by decide) (by decide), h.2.2.2.2.2.2⟩

/-- C2 counterexample: the MM buys 1 share from user 2 at price 99.50 in
sTrade; the MM side loses exactly 99.50 cash but user 2 is credited only the
truncated 99, so the cash removed from the buyer side does not equal the
cash credited to the seller side. -/
theorem C2_counterexample :
    mmCashOf sTrade 1 - mmCashOf (execute_trade sTrade 1 MM_USER_ID 2 (199/2) 1 9) 1
      = 199/2 ∧
    get_cash (execute_trade sTrade 1 MM_USER_ID 2 (199/2) 1 9) 2
      - get_cash sTrade 2 = 99 ∧
    ¬ ((99 : ℚ) = 199/2) := by
  refine ⟨by decide, by decide, by decide⟩

theorem refresh_mm_quotes_frame (env : Env) (s : State) (ch : Nat) :
    (refresh_mm_quotes env s ch).trades = s.trades ∧
    (refresh_mm_quotes env s ch).economy = s.economy ∧
    (refresh_mm_quotes env s ch).holdings = s.holdings ∧
    (refresh_mm_quotes env s ch).priceHistory = s.priceHistory ∧
    (refresh_mm_quotes env s ch).channelRevenue = s.channelRevenue ∧
    (refresh_mm_quotes env s ch).marketSettings = s.marketSettings ∧
    (refresh_mm_quotes env s ch).fillLog = s.fillLog := by
  unfold refresh_mm_quotes
  cases hco : s.companies ch with
  | none => simp
  | some co =>
      cases hmm : s.mmState ch with
      | none => simp
      | some mm =>
          simp only [updateMMState, updateCompany, cancel_mm_orders, insert_order,
            apply_ite State.trades, apply_ite State.economy, apply_ite State.holdings,
            apply_ite State.priceHistory, apply_ite State.channelRevenue,
            apply_ite State.marketSettings, apply_ite State.fillLog, ite_self]
          simp

theorem refresh_mm_fair (env : Env) (s : State) (ch : Nat) (co : Company) (mm : MMState)
    (hco : s.companies ch = some co) (hmm : s.mmState ch = some mm) :
    (refresh_mm_quotes env s ch).mmState ch =
      some ⟨mm.cash, mm.inventory, requoted_fair env s ch co mm, env.volatility, env.now⟩ ∧
    (refresh_mm_quotes env s ch).companies ch =
      some { co with fairPrice := requoted_fair env s ch co mm } ∧
    1/100 ≤ requoted_fair env s ch co mm := by
  refine ⟨?_, ?_, ?_⟩
  · simp only [refresh_mm_quotes, hco, hmm, updateMMState, updateCompany, cancel_mm_orders,
      insert_order, apply_ite State.mmState, ite_self]
    simp [hmm, requoted_fair]
  · simp only [refresh_mm_quotes, hco, hmm, updateMMState, updateCompany, cancel_mm_orders,
      insert_order, apply_ite State.mmState, apply_ite State.companies, ite_self]
    simp [hco, hmm, requoted_fair]
  · exact le_max_right _ _

theorem refresh_mm_other_channels (env : Env) (s : State) (ch c : Nat) (hc : c ≠ ch) :
    (refresh_mm_quotes env s ch).mmState c = s.mmState c ∧
    (refresh_mm_quotes env s ch).companies c = s.companies c := by
  unfold refresh_mm_quotes
  cases hco : s.companies ch with
  | none => exact ⟨rfl, rfl⟩
  | some co =>
      cases hmm : s.mmState ch with
      | none => exact ⟨rfl, rfl⟩
      | some mm =>
          simp only [updateMMState, updateCompany, cancel_mm_orders, insert_order,
            apply_ite State.mmState, apply_ite State.companies, ite_self]
          simp [hc]

theorem refresh_mm_quotes_orders (env : Env) (s : State) (ch : Nat) (co : Company)
    (mm : MMState) (hco : s.companies ch = some co) (hmm : s.mmState ch = some mm) :
    (refresh_mm_quotes env s ch).orders.filter (fun o => !(o.channelId == ch && o.isMM))
      = s.orders.filter (fun o => !(o.channelId == ch && o.isMM)) ∧
    ((refresh_mm_quotes env s ch).orders.filter
      (fun o => o.channelId == ch && o.isMM && o.side == Side.buy)).length ≤ 1 ∧
    ((refresh_mm_quotes env s ch).orders.filter
      (fun o => o.channelId == ch && o.isMM && o.side == Side.sell)).length ≤ 1 := by
  have hnil : ∀ (l : List Order) (p : Order → Bool),
      ((l.filter (fun o => !(o.channelId == ch && o.isMM))).filter
        (fun o => o.channelId == ch && o.isMM && p o)) = [] := by
    intro l p
    rw [List.filter_eq_nil_iff]
    intro o ho
    have hkeep := (List.mem_filter.mp ho).2
    simp only [Bool.not_eq_eq_eq_not, Bool.not_true] at hkeep
    simp [hkeep]
  have hfid : ∀ l : List Order,
      (l.filter (fun o => !(o.channelId == ch && o.isMM))).filter
        (fun o => !(o.channelId == ch && o.isMM))
      = l.filter (fun o => !(o.channelId == ch && o.isMM)) := by
    intro l
    rw [List.filter_filter]
    congr 1
    funext o
    cases o.channelId == ch && o.isMM <;> rfl
  have hnil2 : ∀ (l : List Order) (p : Order → Bool),
      l.filter (fun o => o.channelId == ch && o.isMM && p o &&
        (!(o.channelId == ch) || !o.isMM)) = [] := by
    intro l p
    rw [List.filter_eq_nil_iff]
    intro a ha
    simp
    tauto
  unfold refresh_mm_quotes
  rw [hco, hmm]
  simp only [updateMMState, updateCompany, cancel_mm_orders]
  repeat' split
  all_goals simp [insert_order, List.filter_append, hnil s.orders, hnil2 s.orders,
    hfid s.orders, hco, hmm]
  all_goals tauto

/-- C7 amended: every fair-price update keeps the fair price strictly
positive (the trade-driven nudge given a non-negative trade price, the
revenue-driven re-pricing through its clamp, and the re-quote); but the
minimum-tick floor of 0.01 is enforced only on the re-quote path — the
nudge and the settlement re-pricing can leave a positive fair price below
0.01. -/
theorem C7_fair_price_positive :
    (∀ (s : State) (ch b sl : Nat) (p : ℚ) (q : ℤ) (n : Nat) (mm : MMState),
      s.mmState ch = some mm → 0 < mm.fairPrice → 0 ≤ p →
      ∃ mm', (execute_trade s ch b sl p q n).mmState ch = some mm' ∧
        0 < mm'.fairPrice) ∧
    (∀ F R Rp : ℚ, 0 < F → 0 < compute_fair_price F R Rp) ∧
    (∀ (env : Env) (s : State) (ch : Nat) (co : Company) (mm : MMState),
      s.companies ch = some co → s.mmState ch = some mm →
      ∃ mm' co', (refresh_mm_quotes env s ch).mmState ch = some mm' ∧
        (refresh_mm_quotes env s ch).companies ch = some co' ∧
        1/100 ≤ mm'.fairPrice ∧ co'.fairPrice = mm'.fairPrice) := by
  refine ⟨?_, ?_, ?_⟩
  · intro s ch b sl p q n mm hmm hf hp
    obtain ⟨mm', h1, _, _, h4, _⟩ := execute_trade_mm_some s ch b sl p q n mm hmm
    refine ⟨mm', h1, ?_⟩
    rw [h4]
    unfold MM_TRADE_IMPACT
    nlinarith
  · intro F R Rp hF
    unfold compute_fair_price
    split
    · exact hF
    · refine lt_of_lt_of_le ?_ (le_max_left _ _)
      unfold MM_MAX_WEEKLY_MOVE
      nlinarith
  · intro env s ch co mm hco hmm
    obtain ⟨h1, h2, h3⟩ := refresh_mm_fair env s ch co mm hco hmm
    exact ⟨_, _, h1, h2, h3, rfl⟩

/-- C7 witness: a trade at price 7 on sTrade keeps the fair price positive,
the clamped update from doubled revenue stays positive, and an MM re-quote
on sSettle floors the stored fair price at 0.01. -/
theorem C7_fair_price_positive_witness :
    0 < mmFairOf (execute_trade sTrade 1 3 MM_USER_ID 7 2 9) 1 ∧
    (0 : ℚ) < compute_fair_price 100 200 100 ∧
    1/100 ≤ mmFairOf (refresh_mm_quotes envS sSettle 1) 1 := by
  obtain ⟨ha, hb, hc⟩ := C7_fair_price_positive
  refine ⟨?_, hb 100 200 100 (by decide), ?_⟩
  · obtain ⟨mm', h1, h2⟩ := ha sTrade 1 3 MM_USER_ID 7 2 9 ⟨1000, 10, 100, 1/100, 0⟩
      (by decide) (by decide) (by decide)
    rw [mmFairOf, h1]
    exact h2
  · obtain ⟨mm', co', h1, h2, h3, h4⟩ := hc envS sSettle 1 ⟨1, 100, 100, 0, 1000, 1/10, 0⟩
      ⟨30000, 1000, 100, 1/100, 0⟩ (by decide) (by decide)
    rw [mmFairOf, h1]
    exact h3

/-- C7 counterexample: in sNudge the fair price starts positive at 0.005;
a trade at price 0.01 nudges it to 0.0051, which is strictly below the
minimum tick 0.01 — no floor is applied on the nudge path. -/
theorem C7_counterexample :
    (0 : ℚ) < 1/200 ∧
    mmFairOf sNudge 1 = 1/200 ∧
    mmFairOf (execute_trade sNudge 1 1 2 (1/100) 1 0) 1 = 51/10000 ∧
    (51/10000 : ℚ) < 1/100 := by
  exact ⟨by decide, by decide, by decide, by decide⟩

/-- C8 amended: cancel fails with notFound when the order id is unknown and
with notOwner when the requester does not own the order, in both cases
returning the state unchanged; on success it removes the order from the
book and refunds int(price times remaining) truncated cash for a buy
(credited only through an existing economy row), or exactly the remaining
reserved shares for a sell. -/
theorem C8_cancel_refund (s : State) (oid req : Nat) :
    (s.orders.find? (fun o => o.id == oid) = none →
      cancel s oid req = (s, Except.error CancelErr.notFound)) ∧
    (∀ o, s.orders.find? (fun o => o.id == oid) = some o → o.userId ≠ req →
      cancel s oid req = (s, Except.error CancelErr.notOwner)) ∧
    (∀ o, s.orders.find? (fun o => o.id == oid) = some o → o.userId = req →
      o.side = Side.buy →
      (cancel s oid req).2 = Except.ok (Refund.cash (truncQ (o.price * (o.remaining : ℚ)))) ∧
      (s.economy.any (fun r => r.userId == req) = true →
        get_cash (cancel s oid req).1 req
          = get_cash s req + truncQ (o.price * (o.remaining : ℚ))) ∧
      (cancel s oid req).1.orders = s.orders.filter (fun o2 => o2.id != oid) ∧
      (cancel s oid req).1.holdings = s.holdings) ∧
    (∀ o, s.orders.find? (fun o => o.id == oid) = some o → o.userId = req →
      o.side = Side.sell →
      (cancel s oid req).2 = Except.ok (Refund.shares o.remaining) ∧
      (0 < (get_holdings s req o.channelId).1 + o.remaining →
        (get_holdings (cancel s oid req).1 req o.channelId).1
          = (get_holdings s req o.channelId).1 + o.remaining) ∧
      (cancel s oid req).1.orders = s.orders.filter (fun o2 => o2.id != oid) ∧
      (cancel s oid req).1.economy = s.economy) := by
  refine ⟨?_, ?_, ?_, ?_⟩
  · intro h
    unfold cancel
    rw [h]
  · intro o ho hne
    unfold cancel
    rw [ho]
    simp [hne]
  · intro o ho howner hside
    have hnot : ¬ o.userId ≠ req := not_not_intro howner
    unfold cancel
    rw [ho]
    simp only [if_neg hnot, if_pos hside]
    refine ⟨by trivial, ?_, by trivial, by trivial⟩
    intro hrow
    rw [← howner] at hrow ⊢
    simp only [get_cash, delete_order, update_cash]
    exact find_cash_credit_present _ hrow
  · intro o ho howner hside
    have hnot : ¬ o.userId ≠ req := not_not_intro howner
    have hnotbuy : ¬ o.side = Side.buy := by rw [hside]; intro hc; cases hc
    unfold cancel
    rw [ho]
    simp only [if_neg hnot, if_neg hnotbuy]
    refine ⟨by trivial, ?_, by trivial, by trivial⟩
    intro hpos
    rw [← howner] at hpos ⊢
    simp only [get_holdings, delete_order, update_holdings]
    exact find_holding_update_self s.holdings o.userId o.channelId o.remaining none hpos

/-- C8 witness: in sCancel, cancelling an unknown id 9 fails with notFound;
user 5 cancelling user 6's sell order fails with notOwner; user 6
cancelling their own sell order gets back exactly the 3 remaining shares. -/
theorem C8_cancel_refund_witness :
    cancel sCancel 9 5 = (sCancel, Except.error CancelErr.notFound) ∧
    cancel sCancel 2 5 = (sCancel, Except.error CancelErr.notOwner) ∧
    (cancel sCancel 2 6).2 = Except.ok (Refund.shares 3) ∧
    (get_holdings (cancel sCancel 2 6).1 6 1).1 = (get_holdings sCancel 6 1).1 + 3 := by
  have h := C8_cancel_refund sCancel 9 5
  have h2 := C8_cancel_refund sCancel 2 5
  have h3 := C8_cancel_refund sCancel 2 6
  refine ⟨h.1 (by decide), ?_, ?_, ?_⟩
  · exact h2.2.1 ⟨2, 1, 1, 6, Side.sell, 2, 3, 3, false, 1⟩ (by decide) (by decide)
  · exact (h3.2.2.2 ⟨2, 1, 1, 6, Side.sell, 2, 3, 3, false, 1⟩ (by decide) rfl rfl).1
  · exact (h3.2.2.2 ⟨2, 1, 1, 6, Side.sell, 2, 3, 3, false, 1⟩ (by decide) rfl rfl).2.1
      (by decide)

/-- C8 counterexample: cancelling the resting buy of sCancel (price 1.50,
1 share remaining, owner 5 with an economy row) refunds the truncated 1,
not the claimed price times remaining = 1.50. -/
theorem C8_counterexample :
    (cancel sCancel 1 5).2 = Except.ok (Refund.cash 1) ∧
    get_cash (cancel sCancel 1 5).1 5 = 1 ∧
    ¬ (((1 : ℤ) : ℚ) = 3/2 * 1) := by
  exact ⟨rfl, by decide, by decide⟩

/-- C9: the MM quote derivation floors the bid at the positive minimum tick
and the ask at one tick above the bid, and the resulting ask is strictly
greater than the resulting bid for all values of fair price, spread and
skew; away from the floors the quotes are exactly fair plus-or-minus
spread/2 plus skew. -/
theorem C9_mm_quotes (fair spread skew : ℚ) :
    (mm_quote_prices fair spread skew).1 = max (fair - spread / 2 + skew) (1/100) ∧
    (mm_quote_prices fair spread skew).2 =
      max (fair + spread / 2 + skew) ((mm_quote_prices fair spread skew).1 + 1/100) ∧
    1/100 ≤ (mm_quote_prices fair spread skew).1 ∧
    0 < (mm_quote_prices fair spread skew).1 ∧
    (mm_quote_prices fair spread skew).1 < (mm_quote_prices fair spread skew).2 := by
  refine ⟨rfl, rfl, le_max_right _ _, ?_, ?_⟩
  · exact lt_of_lt_of_le (by norm_num) (le_max_right _ _)
  · have h : (mm_quote_prices fair spread skew).1 <
        (mm_quote_prices fair spread skew).1 + 1/100 := by linarith
    exact lt_of_lt_of_le h (le_max_right _ _)

/-- C10: an MM re-quote appends no trade and no price-history records,
touches no participant cash or holdings, leaves non-MM orders and other
channels' MM orders unchanged, leaves at most one MM buy and one MM sell
order on the re-quoted market, and mutates only that market's mm_state row
and its company's fair price. -/
theorem C10_requote_frame (env : Env) (s : State) (ch : Nat) (co : Company) (mm : MMState)
    (hco : s.companies ch = some co) (hmm : s.mmState ch = some mm) :
    (refresh_mm_quotes env s ch).trades = s.trades ∧
    (refresh_mm_quotes env s ch).priceHistory = s.priceHistory ∧
    (refresh_mm_quotes env s ch).economy = s.economy ∧
    (refresh_mm_quotes env s ch).holdings = s.holdings ∧
    (refresh_mm_quotes env s ch).orders.filter (fun o => !(o.channelId == ch && o.isMM))
      = s.orders.filter (fun o => !(o.channelId == ch && o.isMM)) ∧
    ((refresh_mm_quotes env s ch).orders.filter
      (fun o => o.channelId == ch && o.isMM && o.side == Side.buy)).length ≤ 1 ∧
    ((refresh_mm_quotes env s ch).orders.filter
      (fun o => o.channelId == ch && o.isMM && o.side == Side.sell)).length ≤ 1 ∧
    (∀ c, c ≠ ch → (refresh_mm_quotes env s ch).mmState c = s.mmState c ∧
      (refresh_mm_quotes env s ch).companies c = s.companies c) ∧
    (∃ fp, (refresh_mm_quotes env s ch).mmState ch =
        some ⟨mm.cash, mm.inventory, fp, env.volatility, env.now⟩ ∧
      (refresh_mm_quotes env s ch).companies ch = some { co with fairPrice := fp }) := by
  obtain ⟨h1, h2, h3, h4, _, _, _⟩ := refresh_mm_quotes_frame env s ch
  obtain ⟨h5, h6, h7⟩ := refresh_mm_quotes_orders env s ch co mm hco hmm
  obtain ⟨h8, h9, _⟩ := refresh_mm_fair env s ch co mm hco hmm
  exact ⟨h1, h4, h2, h3, h5, h6, h7,
    fun c hc => refresh_mm_other_channels env s ch c hc, _, h8, h9⟩

/-- C10 witness: re-quoting channel 1 of sSettle appends no trades, leaves
the holdings table unchanged, and leaves exactly one MM buy and one MM sell
order in the book. -/
theorem C10_requote_frame_witness :
    (refresh_mm_quotes envS sSettle 1).trades = sSettle.trades ∧
    (refresh_mm_quotes envS sSettle 1).holdings = sSettle.holdings ∧
    ((refresh_mm_quotes envS sSettle 1).orders.filter
      (fun o => o.channelId == 1 && o.isMM && o.side == Side.buy)).length ≤ 1 ∧
    ((refresh_mm_quotes envS sSettle 1).orders.filter
      (fun o => o.channelId == 1 && o.isMM && o.side == Side.sell)).length ≤ 1 := by
  have h := C10_requote_frame envS sSettle 1 ⟨1, 100, 100, 0, 1000, 1/10, 0⟩
    ⟨30000, 1000, 100, 1/100, 0⟩ (by decide) (by decide)
  exact ⟨h.1, h.2.2.2.1, h.2.2.2.2.2.1, h.2.2.2.2.2.2.1⟩

theorem execute_trade_orders (s : State) (ch b sl : Nat) (p : ℚ) (q : ℤ) (n : Nat) :
    (execute_trade s ch b sl p q n).orders = s.orders :=
  (execute_trade_book s ch b sl p q n).1

theorem execute_trade_fillLog (s : State) (ch b sl : Nat) (p : ℚ) (q : ℤ) (n : Nat) :
    (execute_trade s ch b sl p q n).fillLog = s.fillLog :=
  (execute_trade_book s ch b sl p q n).2.1

theorem execute_trade_nextOrderId (s : State) (ch b sl : Nat) (p : ℚ) (q : ℤ) (n : Nat) :
    (execute_trade s ch b sl p q n).nextOrderId = s.nextOrderId :=
  (execute_trade_book s ch b sl p q n).2.2

theorem match_loop_break (ch tk : Nat) (b : Bool) (oid now : Nat) (L : List Order)
    (s : State) (rem : ℤ) (fills : List Fill) (h : rem ≤ 0) :
    match_loop ch tk b oid now L s rem fills = (s, rem, fills) := by
  cases L with
  | nil => rfl
  | cons a rest => simp [match_loop, h]

theorem match_loop_effects (ch tk : Nat) (b : Bool) (oid now : Nat) (L : List Order) :
    ∀ (s : State) (rem : ℤ) (fills : List Fill),
    (match_loop ch tk b oid now L s rem fills).1.nextOrderId = s.nextOrderId ∧
    (∃ t, (match_loop ch tk b oid now L s rem fills).1.fillLog = s.fillLog ++ t ∧
      ∀ e ∈ t, e.1 = oid ∨ e.1 ∈ L.map (fun o => o.id)) ∧
    (∀ f ∈ (match_loop ch tk b oid now L s rem fills).2.2,
      f ∈ fills ∨ ∃ a ∈ L, f.price = a.price ∧ f.counterparty = a.userId) := by
  induction L with
  | nil =>
      intro s rem fills
      exact ⟨rfl, ⟨[], by simp [match_loop], by simp⟩, by simp [match_loop]⟩
  | cons a rest ih =>
      intro s rem fills
      by_cases h : rem ≤ 0
      · rw [match_loop_break ch tk b oid now _ s rem fills h]
        exact ⟨rfl, ⟨[], by simp, by simp⟩, fun f hf => Or.inl hf⟩
      · simp only [match_loop, if_neg h]
        set fq := min rem a.remaining with hfq
        set s1 := (if b = true then execute_trade s ch tk a.userId a.price fq now
                   else execute_trade s ch a.userId tk a.price fq now) with hs1
        have hs1book : s1.fillLog = s.fillLog ∧ s1.nextOrderId = s.nextOrderId := by
          rw [hs1]
          cases b <;> simp [execute_trade_fillLog, execute_trade_nextOrderId]
        set s2 := { s1 with fillLog := s1.fillLog ++ [(oid, fq), (a.id, fq)] } with hs2
        set nr := a.remaining - fq with hnr
        set S3 := (if nr ≤ 0 then delete_order s2 a.id else set_remaining s2 a.id nr) with hS3
        have hS3facts : S3.fillLog = s.fillLog ++ [(oid, fq), (a.id, fq)] ∧
            S3.nextOrderId = s.nextOrderId := by
          rw [hS3]
          split <;> simp [delete_order, set_remaining, hs2, hs1book.1, hs1book.2]
        obtain ⟨iha, ⟨t, ht1, ht2⟩, ihc⟩ := ih S3 (rem - fq) (fills ++ [⟨a.price, fq, a.userId⟩])
        refine ⟨?_, ⟨(oid, fq) :: (a.id, fq) :: t, ?_, ?_⟩, ?_⟩
        · rw [iha, hS3facts.2]
        · rw [ht1, hS3facts.1]
          simp
        · intro e he
          rcases List.mem_cons.mp he with rfl | he2
          · exact Or.inl rfl
          · rcases List.mem_cons.mp he2 with rfl | he3
            · exact Or.inr (by simp)
            · rcases ht2 e he3 with h1 | h1
              · exact Or.inl h1
              · refine Or.inr ?_
                simp only [List.map_cons, List.mem_cons]
                exact Or.inr (by simpa using h1)
        · intro f hf
          rcases ihc f hf with hf2 | ⟨a2, ha2, hp⟩
          · rcases List.mem_append.mp hf2 with hfi | hfi
            · exact Or.inl hfi
            · have hfeq : f = ⟨a.price, fq, a.userId⟩ := by simpa using hfi
              exact Or.inr ⟨a, List.mem_cons_self a rest, by rw [hfeq], by rw [hfeq]⟩
          · exact Or.inr ⟨a2, List.mem_cons_of_mem a ha2, hp⟩

theorem mem_eligible_asks (s : State) (ch : Nat) (limit : ℚ) (oid : Nat) (a : Order) :
    a ∈ eligible_asks s ch limit oid ↔
      a ∈ s.orders ∧ a.channelId = ch ∧ a.side = Side.sell ∧ a.price ≤ limit ∧
        a.id ≠ oid := by
  unfold eligible_asks
  rw [(List.perm_insertionSort _ _).mem_iff, List.mem_filter]
  simp [and_assoc]

theorem mem_eligible_bids (s : State) (ch : Nat) (limit : ℚ) (oid : Nat) (a : Order) :
    a ∈ eligible_bids s ch limit oid ↔
      a ∈ s.orders ∧ a.channelId = ch ∧ a.side = Side.buy ∧ limit ≤ a.price ∧
        a.id ≠ oid := by
  unfold eligible_bids
  rw [(List.perm_insertionSort _ _).mem_iff, List.mem_filter]
  simp [and_assoc]

/-- C3: every fill of an incoming order executes at the price of an eligible
resting (maker) order of the opposite side: for an incoming buy every fill
price is at most the order's limit price, and for an incoming sell every
fill price is at least the order's limit price. -/
theorem C3_no_worse_than_limit (env : Env) (s : State) (ch oid : Nat) (ord : Order)
    (hfind : s.orders.find? (fun o => o.id == oid) = some ord) :
    (ord.side = Side.buy → ∀ f ∈ (match_orders env s ch oid).2,
      f.price ≤ ord.price ∧
      ∃ a ∈ s.orders, a.id ≠ oid ∧ a.channelId = ch ∧ a.side = Side.sell ∧
        f.price = a.price) ∧
    (ord.side = Side.sell → ∀ f ∈ (match_orders env s ch oid).2,
      ord.price ≤ f.price ∧
      ∃ a ∈ s.orders, a.id ≠ oid ∧ a.channelId = ch ∧ a.side = Side.buy ∧
        f.price = a.price) := by
  constructor
  · intro hside f hf
    simp only [match_orders, hfind, hside, reduceIte, apply_ite Prod.snd, ite_self] at hf
    rcases (match_loop_effects ch ord.userId true oid env.now
        (eligible_asks s ch ord.price oid) s ord.remaining []).2.2 f hf with hemp | ⟨a, ha, hp⟩
    · cases hemp
    · obtain ⟨hmem, hach, haside, haprice, haid⟩ := (mem_eligible_asks s ch ord.price oid a).mp ha
      exact ⟨hp.1 ▸ haprice, a, hmem, haid, hach, haside, hp.1⟩
  · intro hside f hf
    simp only [match_orders, hfind, hside, reduceCtorEq, reduceIte, if_false,
      Bool.false_eq_true, apply_ite Prod.snd, ite_self] at hf
    rcases (match_loop_effects ch ord.userId false oid env.now
        (eligible_bids s ch ord.price oid) s ord.remaining []).2.2 f hf with hemp | ⟨a, ha, hp⟩
    · cases hemp
    · obtain ⟨hmem, hach, haside, haprice, haid⟩ := (mem_eligible_bids s ch ord.price oid a).mp ha
      exact ⟨hp.1 ▸ haprice, a, hmem, haid, hach, haside, hp.1⟩

/-- C3 witness: the spec scenario — an incoming buy of 10 at 101 (order id 3
of sBook) against resting sells 5 at 99 and 5 at 100 fills 5 at 99 then 5 at
100, every fill price at most the 101 limit. -/
theorem C3_no_worse_than_limit_witness :
    ((match_orders envT sBook 1 3).2.all (fun f => decide (f.price ≤ 101))) = true ∧
    (match_orders envT sBook 1 3).2 =
      [⟨99, 5, 10⟩, ⟨100, 5, 11⟩] := by
  have h := (C3_no_worse_than_limit envT sBook 1 3
    ⟨3, 1, 1, 12, Side.buy, 101, 10, 10, false, 300⟩ (by decide)).1 rfl
  constructor
  · rw [List.all_eq_true]
    intro f hf
    exact decide_eq_true (h f hf).1
  · decide

theorem askPriority_refl (a : Order) : askPriority a a := Or.inr ⟨rfl, le_refl _⟩

theorem bidPriority_refl (a : Order) : bidPriority a a := Or.inr ⟨rfl, le_refl _⟩

theorem pairwise_decomp (le : Order → Order → Prop) (hrefl : ∀ x, le x x)
    (l : List Order) (o1 o2 : Order) (hs : l.Pairwise le) (h1 : o1 ∈ l) (h2 : o2 ∈ l)
    (hno : ¬ le o2 o1) :
    ∃ l1 l2, l = l1 ++ o1 :: l2 ∧ o2 ∈ l2 := by
  induction l with
  | nil => cases h1
  | cons b t ih =>
      rcases List.mem_cons.mp h1 with rfl | h1t
      · rcases List.mem_cons.mp h2 with heq | h2t
        · exact absurd (heq ▸ hrefl o2) (heq ▸ hno)
        · exact ⟨[], t, rfl, h2t⟩
      · rcases List.mem_cons.mp h2 with rfl | h2t
        · exact absurd ((List.pairwise_cons.mp hs).1 o1 h1t) hno
        · obtain ⟨l1, l2, hl, hm⟩ := ih (List.pairwise_cons.mp hs).2 h1t h2t
          exact ⟨b :: l1, l2, by rw [hl]; rfl, hm⟩

theorem eligible_asks_sorted (s : State) (ch : Nat) (limit : ℚ) (oid : Nat) :
    (eligible_asks s ch limit oid).Pairwise askPriority :=
  List.sorted_insertionSort askPriority _

theorem eligible_bids_sorted (s : State) (ch : Nat) (limit : ℚ) (oid : Nat) :
    (eligible_bids s ch limit oid).Pairwise bidPriority :=
  List.sorted_insertionSort bidPriority _

theorem eligible_asks_nodup (s : State) (ch : Nat) (limit : ℚ) (oid : Nat)
    (h : (s.orders.map (fun o => o.id)).Nodup) :
    ((eligible_asks s ch limit oid).map (fun o => o.id)).Nodup := by
  have hperm := (List.perm_insertionSort askPriority
    (s.orders.filter (fun o =>
      o.channelId == ch && o.side == Side.sell && decide (o.price ≤ limit) &&
        o.id != oid))).map (fun o => o.id)
  unfold eligible_asks
  rw [List.Perm.nodup_iff hperm]
  exact ((List.filter_sublist s.orders).map (fun o => o.id)).nodup h

theorem eligible_bids_nodup (s : State) (ch : Nat) (limit : ℚ) (oid : Nat)
    (h : (s.orders.map (fun o => o.id)).Nodup) :
    ((eligible_bids s ch limit oid).map (fun o => o.id)).Nodup := by
  have hperm := (List.perm_insertionSort bidPriority
    (s.orders.filter (fun o =>
      o.channelId == ch && o.side == Side.buy && decide (limit ≤ o.price) &&
        o.id != oid))).map (fun o => o.id)
  unfold eligible_bids
  rw [List.Perm.nodup_iff hperm]
  exact ((List.filter_sublist s.orders).map (fun o => o.id)).nodup h

theorem match_loop_priority (ch tk : Nat) (b : Bool) (oid now : Nat) :
    ∀ (L1 : List Order) (a1 : Order) (L2 : List Order) (s : State) (rem : ℤ)
      (fills : List Fill) (a2 : Order),
    a2 ∈ L2 →
    ((L1 ++ a1 :: L2).map (fun o => o.id)).Nodup →
    (∀ a ∈ L1 ++ a1 :: L2, a.id ≠ oid) →
    sumFillsFor (match_loop ch tk b oid now (L1 ++ a1 :: L2) s rem fills).1.fillLog a2.id
      > sumFillsFor s.fillLog a2.id →
    sumFillsFor (match_loop ch tk b oid now (L1 ++ a1 :: L2) s rem fills).1.fillLog a1.id
      = sumFillsFor s.fillLog a1.id + a1.remaining := by
  intro L1
  induction L1 with
  | nil =>
      intro a1 L2 s rem fills a2 h2 hnodup hnoid hgt
      by_cases h : rem ≤ 0
      · rw [match_loop_break ch tk b oid now _ s rem fills h] at hgt
        exact absurd hgt (lt_irrefl _)
      · simp only [List.nil_append] at hnodup hnoid hgt ⊢
        simp only [match_loop, if_neg h] at hgt ⊢
        set fq := min rem a1.remaining with hfq
        set s1 := (if b = true then execute_trade s ch tk a1.userId a1.price fq now
                   else execute_trade s ch a1.userId tk a1.price fq now) with hs1
        have hs1log : s1.fillLog = s.fillLog := by
          rw [hs1]
          cases b <;> simp [execute_trade_fillLog]
        set s2 := { s1 with fillLog := s1.fillLog ++ [(oid, fq), (a1.id, fq)] } with hs2
        set nr := a1.remaining - fq with hnr
        set S3 := (if nr ≤ 0 then delete_order s2 a1.id else set_remaining s2 a1.id nr)
          with hS3
        have hS3log : S3.fillLog = s.fillLog ++ [(oid, fq), (a1.id, fq)] := by
          rw [hS3]
          split <;> simp [delete_order, set_remaining, hs2, hs1log]
        have hid1oid : a1.id ≠ oid := hnoid a1 (List.mem_cons_self a1 L2)
        have hid2oid : a2.id ≠ oid := hnoid a2 (List.mem_cons_of_mem a1 h2)
        have hnodup' : a1.id ∉ L2.map (fun o => o.id) ∧
            (L2.map (fun o => o.id)).Nodup := by
          rw [List.map_cons, List.nodup_cons] at hnodup
          exact hnodup
        have hid21 : a1.id ≠ a2.id := by
          intro hc
          exact hnodup'.1 (hc ▸ List.mem_map_of_mem (fun o => o.id) h2)
        have hpairs2 : sumFillsFor [(oid, fq), (a1.id, fq)] a2.id = 0 :=
          sumFillsFor_eq_zero (by
            intro e he
            rcases List.mem_cons.mp he with rfl | he2
            · exact fun hc => hid2oid hc.symm
            · rcases List.mem_cons.mp he2 with rfl | he3
              · exact fun hc => hid21 hc
              · cases he3)
        have hsum2S3 : sumFillsFor S3.fillLog a2.id = sumFillsFor s.fillLog a2.id := by
          rw [hS3log, sumFillsFor_append, hpairs2, add_zero]
        by_cases h3 : rem - fq ≤ 0
        · rw [match_loop_break ch tk b oid now _ _ _ _ h3] at hgt
          rw [hsum2S3] at hgt
          exact absurd hgt (lt_irrefl _)
        · have hfqa : fq = a1.remaining := by
            rcases min_choice rem a1.remaining with hm | hm
            · exfalso
              apply h3
              rw [hfq, hm]
              omega
            · rw [hfq, hm]
          obtain ⟨_, ⟨t, ht1, ht2⟩, _⟩ := match_loop_effects ch tk b oid now L2 S3 (rem - fq)
            (fills ++ [⟨a1.price, fq, a1.userId⟩])
          rw [ht1, sumFillsFor_append, hS3log, sumFillsFor_append]
          have hid1L2 : a1.id ∉ L2.map (fun o => o.id) := hnodup'.1
          have ht0 : sumFillsFor t a1.id = 0 :=
            sumFillsFor_eq_zero (by
              intro e he hc
              rcases ht2 e he with h1 | h1
              · exact hid1oid (hc.symm.trans h1)
              · exact hid1L2 (hc ▸ h1))
          have hpair1 : sumFillsFor [(oid, fq), (a1.id, fq)] a1.id = fq := by
            have hb : (oid == a1.id) = false := beq_eq_false_iff_ne.mpr (Ne.symm hid1oid)
            simp [sumFillsFor, hb]
          rw [hpair1, ht0, hfqa]
          omega
  | cons bhd L1' ih =>
      intro a1 L2 s rem fills a2 h2 hnodup hnoid hgt
      by_cases h : rem ≤ 0
      · rw [match_loop_break ch tk b oid now _ s rem fills h] at hgt
        exact absurd hgt (lt_irrefl _)
      · simp only [List.cons_append] at hnodup hnoid hgt ⊢
        simp only [match_loop, if_neg h] at hgt ⊢
        set fq := min rem bhd.remaining with hfq
        set s1 := (if b = true then execute_trade s ch tk bhd.userId bhd.price fq now
                   else execute_trade s ch bhd.userId tk bhd.price fq now) with hs1
        have hs1log : s1.fillLog = s.fillLog := by
          rw [hs1]
          cases b <;> simp [execute_trade_fillLog]
        set s2 := { s1 with fillLog := s1.fillLog ++ [(oid, fq), (bhd.id, fq)] } with hs2
        set nr := bhd.remaining - fq with hnr
        set S3 := (if nr ≤ 0 then delete_order s2 bhd.id else set_remaining s2 bhd.id nr)
          with hS3
        have hS3log : S3.fillLog = s.fillLog ++ [(oid, fq), (bhd.id, fq)] := by
          rw [hS3]
          split <;> simp [delete_order, set_remaining, hs2, hs1log]
        have hmem1 : a1 ∈ L1' ++ a1 :: L2 := by
          rw [List.mem_append]
          exact Or.inr (List.mem_cons_self a1 L2)
        have hmem2 : a2 ∈ L1' ++ a1 :: L2 := by
          rw [List.mem_append]
          exact Or.inr (List.mem_cons_of_mem a1 h2)
        have hid2oid : a2.id ≠ oid := hnoid a2 (List.mem_cons_of_mem bhd hmem2)
        have hid1oid : a1.id ≠ oid := hnoid a1 (List.mem_cons_of_mem bhd hmem1)
        have hnodup' : bhd.id ∉ (L1' ++ a1 :: L2).map (fun o => o.id) ∧
            ((L1' ++ a1 :: L2).map (fun o => o.id)).Nodup := by
          rw [List.map_cons, List.nodup_cons] at hnodup
          exact hnodup
        have hbhdtail := hnodup'.1
        have hid2bhd : bhd.id ≠ a2.id := by
          intro hc
          exact hbhdtail (hc ▸ List.mem_map_of_mem (fun o => o.id) hmem2)
        have hid1bhd : bhd.id ≠ a1.id := by
          intro hc
          exact hbhdtail (hc ▸ List.mem_map_of_mem (fun o => o.id) hmem1)
        have hpairs2 : sumFillsFor [(oid, fq), (bhd.id, fq)] a2.id = 0 :=
          sumFillsFor_eq_zero (by
            intro e he
            rcases List.mem_cons.mp he with rfl | he2
            · exact fun hc => hid2oid hc.symm
            · rcases List.mem_cons.mp he2 with rfl | he3
              · exact fun hc => hid2bhd hc
              · cases he3)
        have hpairs1 : sumFillsFor [(oid, fq), (bhd.id, fq)] a1.id = 0 :=
          sumFillsFor_eq_zero (by
            intro e he
            rcases List.mem_cons.mp he with rfl | he2
            · exact fun hc => hid1oid hc.symm
            · rcases List.mem_cons.mp he2 with rfl | he3
              · exact fun hc => hid1bhd hc
              · cases he3)
        have hsum2S3 : sumFillsFor S3.fillLog a2.id = sumFillsFor s.fillLog a2.id := by
          rw [hS3log, sumFillsFor_append, hpairs2, add_zero]
        have hsum1S3 : sumFillsFor S3.fillLog a1.id = sumFillsFor s.fillLog a1.id := by
          rw [hS3log, sumFillsFor_append, hpairs1, add_zero]
        have htailnodup : ((L1' ++ a1 :: L2).map (fun o => o.id)).Nodup := hnodup'.2
        have htailnoid : ∀ a ∈ L1' ++ a1 :: L2, a.id ≠ oid :=
          fun a ha => hnoid a (List.mem_cons_of_mem bhd ha)
        have hgt' : sumFillsFor (match_loop ch tk b oid now (L1' ++ a1 :: L2) S3 (rem - fq)
            (fills ++ [⟨bhd.price, fq, bhd.userId⟩])).1.fillLog a2.id
            > sumFillsFor S3.fillLog a2.id := by
          rw [hsum2S3]
          exact hgt
        have := ih a1 L2 S3 (rem - fq) (fills ++ [⟨bhd.price, fq, bhd.userId⟩]) a2 h2
          htailnodup htailnoid hgt'
        rw [this, hsum1S3]

/-- C4: matching follows price-time priority.  For an incoming buy, if an
eligible resting sell o2 receives any fill while o1 is an eligible resting
sell with strictly better priority (lower price, or equal price and earlier
creation time), then o1 was filled completely; symmetrically for an incoming
sell against resting buys (higher price first, then earlier creation). -/
theorem C4_price_time_priority (env : Env) (s : State) (ch oid : Nat) (ord o1 o2 : Order)
    (hfind : s.orders.find? (fun o => o.id == oid) = some ord)
    (hids : (s.orders.map (fun o => o.id)).Nodup)
    (h1mem : o1 ∈ s.orders) (h2mem : o2 ∈ s.orders)
    (h1ch : o1.channelId = ch) (h2ch : o2.channelId = ch)
    (h1id : o1.id ≠ oid) (h2id : o2.id ≠ oid)
    (hsides :
      (ord.side = Side.buy ∧ o1.side = Side.sell ∧ o2.side = Side.sell ∧
        o1.price ≤ ord.price ∧ o2.price ≤ ord.price ∧
        (o1.price < o2.price ∨ (o1.price = o2.price ∧ o1.createdAt < o2.createdAt))) ∨
      (ord.side = Side.sell ∧ o1.side = Side.buy ∧ o2.side = Side.buy ∧
        ord.price ≤ o1.price ∧ ord.price ≤ o2.price ∧
        (o2.price < o1.price ∨ (o1.price = o2.price ∧ o1.createdAt < o2.createdAt))))
    (hfill2 : sumFillsFor (match_orders env s ch oid).1.fillLog o2.id
      > sumFillsFor s.fillLog o2.id) :
    sumFillsFor (match_orders env s ch oid).1.fillLog o1.id
      = sumFillsFor s.fillLog o1.id + o1.remaining := by
  have hrf : ∀ s', (refresh_mm_quotes env s' ch).fillLog = s'.fillLog :=
    fun s' => (refresh_mm_quotes_frame env s' ch).2.2.2.2.2.2
  have hlog : (match_orders env s ch oid).1.fillLog =
      (if ord.side = Side.buy then
        match_loop ch ord.userId true oid env.now (eligible_asks s ch ord.price oid) s
          ord.remaining []
      else
        match_loop ch ord.userId false oid env.now (eligible_bids s ch ord.price oid) s
          ord.remaining []).1.fillLog := by
    simp only [match_orders, hfind, apply_ite (fun p : State × List Fill => p.1.fillLog),
      hrf, ite_self, delete_order, set_remaining, apply_ite State.fillLog]
  rcases hsides with ⟨hsideo, h1s, h2s, h1p, h2p, hstrict⟩ |
    ⟨hsideo, h1s, h2s, h1p, h2p, hstrict⟩
  · have h1e : o1 ∈ eligible_asks s ch ord.price oid :=
      (mem_eligible_asks s ch ord.price oid o1).mpr ⟨h1mem, h1ch, h1s, h1p, h1id⟩
    have h2e : o2 ∈ eligible_asks s ch ord.price oid :=
      (mem_eligible_asks s ch ord.price oid o2).mpr ⟨h2mem, h2ch, h2s, h2p, h2id⟩
    have hno : ¬ askPriority o2 o1 := by
      unfold askPriority
      rcases hstrict with hlt | ⟨heq, hts⟩
      · rintro (hc | ⟨hc, _⟩)
        · exact absurd hc (by linarith)
        · exact absurd hc (by intro h2c; rw [h2c] at hlt; exact lt_irrefl _ hlt)
      · rintro (hc | ⟨hc, hle⟩)
        · rw [heq] at hc
          exact lt_irrefl _ hc
        · omega
    obtain ⟨l1, l2, hdecomp, h2l2⟩ := pairwise_decomp askPriority askPriority_refl _ o1 o2
      (eligible_asks_sorted s ch ord.price oid) h1e h2e hno
    have hnodupL : ((l1 ++ o1 :: l2).map (fun o => o.id)).Nodup :=
      hdecomp ▸ eligible_asks_nodup s ch ord.price oid hids
    have hnoidL : ∀ a ∈ l1 ++ o1 :: l2, a.id ≠ oid := by
      intro a ha
      have hae : a ∈ eligible_asks s ch ord.price oid := hdecomp ▸ ha
      exact ((mem_eligible_asks s ch ord.price oid a).mp hae).2.2.2.2
    rw [hlog, if_pos hsideo, hdecomp] at hfill2 ⊢
    exact match_loop_priority ch ord.userId true oid env.now l1 o1 l2 s ord.remaining []
      o2 h2l2 hnodupL hnoidL hfill2
  · have hnotbuy : ¬ ord.side = Side.buy := by rw [hsideo]; intro hc; cases hc
    have h1e : o1 ∈ eligible_bids s ch ord.price oid :=
      (mem_eligible_bids s ch ord.price oid o1).mpr ⟨h1mem, h1ch, h1s, h1p, h1id⟩
    have h2e : o2 ∈ eligible_bids s ch ord.price oid :=
      (mem_eligible_bids s ch ord.price oid o2).mpr ⟨h2mem, h2ch, h2s, h2p, h2id⟩
    have hno : ¬ bidPriority o2 o1 := by
      unfold bidPriority
      rcases hstrict with hlt | ⟨heq, hts⟩
      · rintro (hc | ⟨hc, _⟩)
        · exact absurd hc (by linarith)
        · exact absurd hc (by intro h2c; rw [h2c] at hlt; exact lt_irrefl _ hlt)
      · rintro (hc | ⟨hc, hle⟩)
        · rw [heq] at hc
          exact lt_irrefl _ hc
        · omega
    obtain ⟨l1, l2, hdecomp, h2l2⟩ := pairwise_decomp bidPriority bidPriority_refl _ o1 o2
      (eligible_bids_sorted s ch ord.price oid) h1e h2e hno
    have hnodupL : ((l1 ++ o1 :: l2).map (fun o => o.id)).Nodup :=
      hdecomp ▸ eligible_bids_nodup s ch ord.price oid hids
    have hnoidL : ∀ a ∈ l1 ++ o1 :: l2, a.id ≠ oid := by
      intro a ha
      have hae : a ∈ eligible_bids s ch ord.price oid := hdecomp ▸ ha
      exact ((mem_eligible_bids s ch ord.price oid a).mp hae).2.2.2.2
    rw [hlog, if_neg hnotbuy, hdecomp] at hfill2 ⊢
    exact match_loop_priority ch ord.userId false oid env.now l1 o1 l2 s ord.remaining []
      o2 h2l2 hnodupL hnoidL hfill2

/-- C4 witness: in sBook the incoming buy (order 3, 10 at 101) fills the
better-priced sell (order 1 at 99) completely; order 2 at 100 receives a
fill, and the theorem forces order 1 to have been fully consumed (5). -/
theorem C4_price_time_priority_witness :
    sumFillsFor (match_orders envT sBook 1 3).1.fillLog 2
      > sumFillsFor sBook.fillLog 2 ∧
    sumFillsFor (match_orders envT sBook 1 3).1.fillLog 1
      = sumFillsFor sBook.fillLog 1 + 5 := by
  refine ⟨by decide, ?_⟩
  exact C4_price_time_priority envT sBook 1 3
    ⟨3, 1, 1, 12, Side.buy, 101, 10, 10, false, 300⟩
    ⟨1, 1, 1, 10, Side.sell, 99, 5, 5, false, 100⟩
    ⟨2, 1, 1, 11, Side.sell, 100, 5, 5, false, 200⟩
    (by decide) (by decide) (by decide) (by decide) rfl rfl (by decide) (by decide)
    (Or.inl ⟨rfl, rfl, rfl, by decide, by decide, Or.inl (by decide)⟩)
    (by decide)

/-- C1: weekly settlement is not idempotent.  In sSettle (one company on
channel 1, player 7 holding 100 of 1000 shares, 1000 accumulated revenue,
10 percent dividend rate, unit noise) the first run pays player 7 a dividend
of 10; settle_weekly_revenue never checks a watermark and never resets the
accumulator, so re-running it for the same week pays the same dividend
again, leaving player 7 with 20. -/
theorem C1_settle_double_pays :
    get_cash (settle_weekly_revenue envS sSettle 1) 7 = 10 ∧
    get_cash (settle_weekly_revenue envS (settle_weekly_revenue envS sSettle 1) 1) 7 = 20 := by
  exact ⟨by decide, by decide⟩

theorem inv_of_book_eq (t t' : State) (ho : t'.orders = t.orders)
    (hl : t'.fillLog = t.fillLog) (hn : t'.nextOrderId = t.nextOrderId)
    (h : BookInv t) : BookInv t' := by
  unfold BookInv at *
  rw [ho, hl, hn]
  exact h

theorem inv_filter_orders (t : State) (p : Order → Bool) (h : BookInv t) :
    BookInv { t with orders := t.orders.filter p } := by
  obtain ⟨h1, h2, h3⟩ := h
  refine ⟨?_, ?_, h3⟩
  · intro o ho
    exact h1 o (List.mem_of_mem_filter ho)
  · exact ((List.filter_sublist t.orders).map (fun o => o.id)).nodup h2

theorem inv_delete_order (t : State) (i : Nat) (h : BookInv t) :
    BookInv (delete_order t i) :=
  inv_filter_orders t (fun o => o.id != i) h

theorem inv_cancel_mm_orders (t : State) (ch : Nat) (h : BookInv t) :
    BookInv (cancel_mm_orders t ch) :=
  inv_filter_orders t (fun o => !(o.channelId == ch && o.isMM)) h

theorem inv_updateMMState (t : State) (ch : Nat) (f : MMState → MMState)
    (h : BookInv t) : BookInv (updateMMState t ch f) := h

theorem inv_updateCompany (t : State) (ch : Nat) (f : Company → Company)
    (h : BookInv t) : BookInv (updateCompany t ch f) := h

theorem inv_insert_order (t : State) (o : Order) (h : BookInv t)
    (hid : o.id = t.nextOrderId) (hrem : o.remaining = o.quantity)
    (hq : 0 < o.quantity) : BookInv (insert_order t o) := by
  obtain ⟨h1, h2, h3⟩ := h
  refine ⟨?_, ?_, ?_⟩
  · intro x hx
    simp only [insert_order] at hx ⊢
    rcases List.mem_append.mp hx with hx | hx
    · obtain ⟨b1, b2, b3, b4⟩ := h1 x hx
      exact ⟨b1, b2, b3, Nat.lt_succ_of_lt b4⟩
    · have hxo : x = o := by simpa using hx
      subst hxo
      refine ⟨by omega, by omega, ?_, by omega⟩
      have hz : sumFillsFor t.fillLog x.id = 0 :=
        sumFillsFor_eq_zero (fun e he hc => by
          have := h3 e he
          omega)
      rw [hz]
      omega
  · simp only [insert_order, List.map_append, List.nodup_append]
    refine ⟨h2, List.nodup_singleton _, ?_⟩
    intro i hi hio
    have hlt : ∀ j ∈ t.orders.map (fun o => o.id), j < t.nextOrderId := by
      intro j hj
      obtain ⟨x, hx, rfl⟩ := List.mem_map.mp hj
      exact (h1 x hx).2.2.2
    have : i = o.id := by simpa using hio
    have := hlt i hi
    omega
  · intro e he
    simp only [insert_order]
    exact Nat.lt_succ_of_lt (h3 e he)

theorem inv_ite {c : Prop} [Decidable c] {a b : State}
    (ha : c → BookInv a) (hb : ¬ c → BookInv b) : BookInv (if c then a else b) := by
  split
  · exact ha (by assumption)
  · exact hb (by assumption)

theorem refresh_preserves_inv (env : Env) (s : State) (ch : Nat) (h : BookInv s) :
    BookInv (refresh_mm_quotes env s ch) := by
  unfold refresh_mm_quotes
  cases hco : s.companies ch with
  | none => exact h
  | some co =>
      cases hmm : s.mmState ch with
      | none => exact h
      | some mm =>
          apply inv_updateCompany
          apply inv_updateMMState
          apply inv_ite
          · intro hA
            apply inv_insert_order
            · apply inv_ite
              · intro hB
                exact inv_insert_order _ _ (inv_cancel_mm_orders s ch h) rfl rfl hB
              · intro _
                exact inv_cancel_mm_orders s ch h
            · rfl
            · rfl
            · exact hA
          · intro _
            apply inv_ite
            · intro hB
              exact inv_insert_order _ _ (inv_cancel_mm_orders s ch h) rfl rfl hB
            · intro _
              exact inv_cancel_mm_orders s ch h

theorem set_remaining_ids (t : State) (i : Nat) (r : ℤ) :
    (set_remaining t i r).orders.map (fun o => o.id) = t.orders.map (fun o => o.id) := by
  simp only [set_remaining, List.map_map]
  apply List.map_congr_left
  intro o _
  by_cases h : o.id = i <;> simp [h]

theorem mem_set_remaining (t : State) (i : Nat) (r : ℤ) (x : Order) :
    x ∈ (set_remaining t i r).orders ↔
      ∃ o ∈ t.orders, x = if o.id = i then { o with remaining := r } else o := by
  simp only [set_remaining, List.mem_map]
  constructor
  · rintro ⟨o, ho, rfl⟩
    exact ⟨o, ho, rfl⟩
  · rintro ⟨o, ho, rfl⟩
    exact ⟨o, ho, rfl⟩

theorem mem_delete_order (t : State) (i : Nat) (x : Order) :
    x ∈ (delete_order t i).orders ↔ x ∈ t.orders ∧ x.id ≠ i := by
  simp [delete_order, List.mem_filter]

theorem match_loop_inv (ch tk : Nat) (b : Bool) (oid now : Nat) (tq : ℤ) :
    ∀ (L : List Order) (s : State) (rem : ℤ) (fills : List Fill),
    (∀ o ∈ s.orders, o.id ≠ oid → 0 ≤ o.remaining ∧ o.remaining ≤ o.quantity ∧
      sumFillsFor s.fillLog o.id = o.quantity - o.remaining ∧ o.id < s.nextOrderId) →
    (∀ o ∈ s.orders, o.id = oid → o.remaining = tq ∧ o.quantity = tq ∧
      sumFillsFor s.fillLog o.id = tq - rem ∧ o.id < s.nextOrderId) →
    (s.orders.map (fun o => o.id)).Nodup →
    (∀ e ∈ s.fillLog, e.1 < s.nextOrderId) →
    oid < s.nextOrderId →
    (∀ a ∈ L, a ∈ s.orders) →
    (L.map (fun o => o.id)).Nodup →
    (∀ a ∈ L, a.id ≠ oid) →
    rem ≤ tq →
    (∀ o ∈ (match_loop ch tk b oid now L s rem fills).1.orders, o.id ≠ oid →
      0 ≤ o.remaining ∧ o.remaining ≤ o.quantity ∧
      sumFillsFor (match_loop ch tk b oid now L s rem fills).1.fillLog o.id
        = o.quantity - o.remaining ∧
      o.id < (match_loop ch tk b oid now L s rem fills).1.nextOrderId) ∧
    (∀ o ∈ (match_loop ch tk b oid now L s rem fills).1.orders, o.id = oid →
      o.remaining = tq ∧ o.quantity = tq ∧
      sumFillsFor (match_loop ch tk b oid now L s rem fills).1.fillLog o.id
        = tq - (match_loop ch tk b oid now L s rem fills).2.1 ∧
      o.id < (match_loop ch tk b oid now L s rem fills).1.nextOrderId) ∧
    ((match_loop ch tk b oid now L s rem fills).1.orders.map (fun o => o.id)).Nodup ∧
    (∀ e ∈ (match_loop ch tk b oid now L s rem fills).1.fillLog,
      e.1 < (match_loop ch tk b oid now L s rem fills).1.nextOrderId) ∧
    (match_loop ch tk b oid now L s rem fills).2.1 ≤ rem ∧
    (match_loop ch tk b oid now L s rem fills).1.nextOrderId = s.nextOrderId := by
  intro L
  induction L with
  | nil =>
      intro s rem fills hH1 hH2 hNodup hLog hOid hL hLn hLo hrt
      exact ⟨hH1, hH2, hNodup, hLog, le_refl rem, rfl⟩
  | cons a rest ih =>
      intro s rem fills hH1 hH2 hNodup hLog hOid hL hLn hLo hrt
      by_cases h : rem ≤ 0
      · rw [match_loop_break ch tk b oid now _ s rem fills h]
        exact ⟨hH1, hH2, hNodup, hLog, le_refl rem, rfl⟩
      · simp only [match_loop, if_neg h]
        set fq := min rem a.remaining with hfq
        set s1 := (if b = true then execute_trade s ch tk a.userId a.price fq now
                   else execute_trade s ch a.userId tk a.price fq now) with hs1
        have hs1frame : s1.orders = s.orders ∧ s1.fillLog = s.fillLog ∧
            s1.nextOrderId = s.nextOrderId := by
          rw [hs1]
          cases b <;>
            exact ⟨execute_trade_orders _ _ _ _ _ _ _, execute_trade_fillLog _ _ _ _ _ _ _,
              execute_trade_nextOrderId _ _ _ _ _ _ _⟩
        set s2 := { s1 with fillLog := s1.fillLog ++ [(oid, fq), (a.id, fq)] } with hs2
        set nr := a.remaining - fq with hnr
        set S3 := (if nr ≤ 0 then delete_order s2 a.id else set_remaining s2 a.id nr)
          with hS3
        have hamem : a ∈ s.orders := hL a (List.mem_cons_self a rest)
        have haoid : a.id ≠ oid := hLo a (List.mem_cons_self a rest)
        obtain ⟨ha0, haq, hasum, halt⟩ := hH1 a hamem haoid
        have hrem0 : 0 < rem := by omega
        have hfq0 : 0 ≤ fq := by
          rw [hfq]
          rcases min_choice rem a.remaining with hm | hm <;> rw [hm] <;> omega
        have hfqrem : fq ≤ rem := by
          rw [hfq]
          exact min_le_left _ _
        have hfqa : fq ≤ a.remaining := by
          rw [hfq]
          exact min_le_right _ _
        have hs2orders : s2.orders = s.orders := by
          rw [hs2]
          exact hs1frame.1
        have hs2log : s2.fillLog = s.fillLog ++ [(oid, fq), (a.id, fq)] := by
          rw [hs2]
          simp [hs1frame.2.1]
        have hs2next : s2.nextOrderId = s.nextOrderId := by
          rw [hs2]
          exact hs1frame.2.2
        have hS3log : S3.fillLog = s.fillLog ++ [(oid, fq), (a.id, fq)] := by
          rw [hS3]
          split <;> simp [delete_order, set_remaining, hs2log, hs1frame.2.1]
        have hS3next : S3.nextOrderId = s.nextOrderId := by
          rw [hS3]
          split <;> simp [delete_order, set_remaining, hs2next, hs1frame.2.2]
        have hS3mem : ∀ x ∈ S3.orders,
            (x ∈ s.orders ∧ x.id ≠ a.id) ∨ (x = { a with remaining := nr } ∧ 0 < nr) := by
          intro x hx
          rw [hS3] at hx
          split at hx
          · rw [mem_delete_order, hs2orders] at hx
            exact Or.inl hx
          · rename_i hpos
            rw [mem_set_remaining, hs2orders] at hx
            obtain ⟨o, ho, hxo⟩ := hx
            by_cases hoi : o.id = a.id
            · have hoa : o = a := List.inj_on_of_nodup_map hNodup ho hamem hoi
              rw [if_pos hoi, hoa] at hxo
              exact Or.inr ⟨hxo, by omega⟩
            · rw [if_neg hoi] at hxo
              exact Or.inl ⟨hxo ▸ ho, hxo ▸ hoi⟩
        have hS3mem2 : ∀ x ∈ s.orders, x.id ≠ a.id → x ∈ S3.orders := by
          intro x hx hne
          rw [hS3]
          split
          · rw [mem_delete_order, hs2orders]
            exact ⟨hx, hne⟩
          · rw [mem_set_remaining, hs2orders]
            exact ⟨x, hx, by rw [if_neg hne]⟩
        have hsum_other : ∀ i : Nat, i ≠ oid → i ≠ a.id →
            sumFillsFor S3.fillLog i = sumFillsFor s.fillLog i := by
          intro i h1 h2
          rw [hS3log, sumFillsFor_append, sumFillsFor_eq_zero (l := [(oid, fq), (a.id, fq)])
            (by
              intro e he
              rcases List.mem_cons.mp he with rfl | he2
              · exact fun hc => h1 hc.symm
              · rcases List.mem_cons.mp he2 with rfl | he3
                · exact fun hc => h2 hc.symm
                · cases he3)]
          omega
        have hsum_a : sumFillsFor S3.fillLog a.id = sumFillsFor s.fillLog a.id + fq := by
          rw [hS3log, sumFillsFor_append]
          have hb2 : (oid == a.id) = false := beq_eq_false_iff_ne.mpr (Ne.symm haoid)
          simp [sumFillsFor, hb2]
        have hsum_oid : sumFillsFor S3.fillLog oid = sumFillsFor s.fillLog oid + fq := by
          rw [hS3log, sumFillsFor_append]
          have hb2 : (a.id == oid) = false := beq_eq_false_iff_ne.mpr haoid
          simp [sumFillsFor, hb2]
        have hrestid : ∀ r ∈ rest, r.id ≠ a.id := by
          intro r hr hc
          have hnd := hLn
          rw [List.map_cons, List.nodup_cons] at hnd
          exact hnd.1 (hc ▸ List.mem_map_of_mem (fun o => o.id) hr)
        have hS3nodup : (S3.orders.map (fun o => o.id)).Nodup := by
          rw [hS3]
          split
          · exact ((List.filter_sublist s2.orders).map (fun o => o.id)).nodup
              (by rw [hs2orders]; exact hNodup)
          · rw [set_remaining_ids, hs2orders]
            exact hNodup
        have IH := ih S3 (rem - fq) (fills ++ [⟨a.price, fq, a.userId⟩])
          (by
            intro o ho hne
            rcases hS3mem o ho with ⟨ho', hnea⟩ | ⟨rfl, hpos⟩
            · obtain ⟨b1, b2, b3, b4⟩ := hH1 o ho' hne
              rw [hS3next, hsum_other o.id hne hnea]
              exact ⟨b1, b2, b3, b4⟩
            · refine ⟨show (0:ℤ) ≤ nr by omega, show nr ≤ a.quantity by omega, ?_, ?_⟩
              · show sumFillsFor S3.fillLog a.id = a.quantity - nr
                rw [hsum_a, hasum]
                omega
              · show a.id < S3.nextOrderId
                rw [hS3next]
                exact halt
          )
          (by
            intro o ho hid
            rcases hS3mem o ho with ⟨ho', hnea⟩ | ⟨rfl, hpos⟩
            · obtain ⟨b1, b2, b3, b4⟩ := hH2 o ho' hid
              rw [hid] at b3
              refine ⟨b1, b2, ?_, by rw [hS3next]; exact b4⟩
              rw [hid, hsum_oid, b3]
              omega
            · exact absurd hid haoid
          )
          hS3nodup
          (by
            intro e he
            rw [hS3log] at he
            rw [hS3next]
            rcases List.mem_append.mp he with he | he
            · exact hLog e he
            · rcases List.mem_cons.mp he with rfl | he2
              · exact hOid
              · rcases List.mem_cons.mp he2 with rfl | he3
                · exact halt
                · cases he3
          )
          (by rw [hS3next]; exact hOid)
          (by
            intro r hr
            exact hS3mem2 r (hL r (List.mem_cons_of_mem a hr)) (hrestid r hr)
          )
          (by
            have hnd := hLn
            rw [List.map_cons, List.nodup_cons] at hnd
            exact hnd.2
          )
          (fun r hr => hLo r (List.mem_cons_of_mem a hr))
          (by omega)
        obtain ⟨i1, i2, i3, i4, i5, i6⟩ := IH
        exact ⟨i1, i2, i3, i4, by omega, by rw [i6, hS3next]⟩

theorem find?_append_none {α : Type} (p : α → Bool) (l₁ l₂ : List α)
    (h : ∀ x ∈ l₁, p x = false) : (l₁ ++ l₂).find? p = l₂.find? p := by
  induction l₁ with
  | nil => rfl
  | cons a t ih =>
      rw [List.cons_append, List.find?_cons_of_neg _ (by simp [h a (List.mem_cons_self a t)])]
      exact ih (fun x hx => h x (List.mem_cons_of_mem a hx))

theorem inv_post_loop (t : State) (oid : Nat) (r tq : ℤ)
    (i1 : ∀ x ∈ t.orders, x.id ≠ oid → 0 ≤ x.remaining ∧ x.remaining ≤ x.quantity ∧
      sumFillsFor t.fillLog x.id = x.quantity - x.remaining ∧ x.id < t.nextOrderId)
    (i2 : ∀ x ∈ t.orders, x.id = oid → x.remaining = tq ∧ x.quantity = tq ∧
      sumFillsFor t.fillLog x.id = tq - r ∧ x.id < t.nextOrderId)
    (i3 : (t.orders.map (fun o => o.id)).Nodup)
    (i4 : ∀ e ∈ t.fillLog, e.1 < t.nextOrderId)
    (hr : r ≤ tq) :
    BookInv (if r ≤ 0 then delete_order t oid else set_remaining t oid r) := by
  apply inv_ite
  · intro _
    refine ⟨?_, ?_, ?_⟩
    · intro x hx
      rw [mem_delete_order] at hx
      exact i1 x hx.1 hx.2
    · exact ((List.filter_sublist t.orders).map (fun o => o.id)).nodup i3
    · intro e he
      exact i4 e he
  · intro hpos
    refine ⟨?_, ?_, ?_⟩
    · intro x hx
      rw [mem_set_remaining] at hx
      obtain ⟨y, hy, hxy⟩ := hx
      by_cases hyid : y.id = oid
      · rw [if_pos hyid] at hxy
        obtain ⟨b1, b2, b3, b4⟩ := i2 y hy hyid
        subst hxy
        refine ⟨show (0:ℤ) ≤ r by omega, show r ≤ y.quantity by omega, ?_, ?_⟩
        · show sumFillsFor t.fillLog y.id = y.quantity - r
          rw [b3]
          omega
        · show y.id < t.nextOrderId
          exact b4
      · rw [if_neg hyid] at hxy
        subst hxy
        exact i1 _ hy hyid
    · rw [set_remaining_ids]
      exact i3
    · intro e he
      exact i4 e he

theorem match_orders_inv_fresh (env : Env) (s : State) (ch : Nat) (o : Order)
    (hs : BookInv s) (hid : o.id = s.nextOrderId) (hrem : o.remaining = o.quantity)
    (hq : 0 < o.quantity) :
    BookInv (match_orders env (insert_order s o) ch o.id).1 := by
  have hinv1 : BookInv (insert_order s o) := inv_insert_order s o hs hid hrem hq
  have hsum0 : sumFillsFor s.fillLog o.id = 0 :=
    sumFillsFor_eq_zero (fun e he hc => by
      have := hs.2.2 e he
      omega)
  have hfind : (insert_order s o).orders.find? (fun x => x.id == o.id) = some o := by
    show (s.orders ++ [o]).find? (fun x => x.id == o.id) = some o
    rw [find?_append_none _ _ _ (fun x hx => by
      have := (hs.1 x hx).2.2.2
      simp only [beq_eq_false_iff_ne]
      omega)]
    simp [List.find?]
  have hH1 : ∀ x ∈ (insert_order s o).orders, x.id ≠ o.id →
      0 ≤ x.remaining ∧ x.remaining ≤ x.quantity ∧
      sumFillsFor (insert_order s o).fillLog x.id = x.quantity - x.remaining ∧
      x.id < (insert_order s o).nextOrderId :=
    fun x hx _ => hinv1.1 x hx
  have hH2 : ∀ x ∈ (insert_order s o).orders, x.id = o.id →
      x.remaining = o.quantity ∧ x.quantity = o.quantity ∧
      sumFillsFor (insert_order s o).fillLog x.id = o.quantity - o.remaining ∧
      x.id < (insert_order s o).nextOrderId := by
    intro x hx hxid
    have hx' : x ∈ s.orders ++ [o] := hx
    rcases List.mem_append.mp hx' with hxs | hxo
    · exact absurd (hs.1 x hxs).2.2.2 (by omega)
    · have hxeq : x = o := by simpa using hxo
      subst hxeq
      refine ⟨hrem, rfl, ?_, ?_⟩
      · show sumFillsFor s.fillLog x.id = x.quantity - x.remaining
        rw [hsum0]
        omega
      · show x.id < s.nextOrderId + 1
        omega
  have hO : o.id < (insert_order s o).nextOrderId := by
    show o.id < s.nextOrderId + 1
    omega
  by_cases hside : o.side = Side.buy
  · simp only [match_orders, hfind, hside, reduceIte, apply_ite Prod.fst]
    obtain ⟨i1, i2, i3, i4, i5, i6⟩ := match_loop_inv ch o.userId true o.id env.now
      o.quantity (eligible_asks (insert_order s o) ch o.price o.id) (insert_order s o)
      o.remaining [] hH1 hH2 hinv1.2.1 hinv1.2.2 hO
      (fun a ha => ((mem_eligible_asks _ _ _ _ a).mp ha).1)
      (eligible_asks_nodup _ _ _ _ hinv1.2.1)
      (fun a ha => ((mem_eligible_asks _ _ _ _ a).mp ha).2.2.2.2)
      (le_of_eq hrem)
    exact inv_ite
      (fun _ => inv_post_loop _ o.id _ o.quantity i1 i2 i3 i4 (by omega))
      (fun _ => refresh_preserves_inv env _ ch
        (inv_post_loop _ o.id _ o.quantity i1 i2 i3 i4 (by omega)))
  · simp only [match_orders, hfind, if_neg hside, apply_ite Prod.fst]
    obtain ⟨i1, i2, i3, i4, i5, i6⟩ := match_loop_inv ch o.userId false o.id env.now
      o.quantity (eligible_bids (insert_order s o) ch o.price o.id) (insert_order s o)
      o.remaining [] hH1 hH2 hinv1.2.1 hinv1.2.2 hO
      (fun a ha => ((mem_eligible_bids _ _ _ _ a).mp ha).1)
      (eligible_bids_nodup _ _ _ _ hinv1.2.1)
      (fun a ha => ((mem_eligible_bids _ _ _ _ a).mp ha).2.2.2.2)
      (le_of_eq hrem)
    exact inv_ite
      (fun _ => inv_post_loop _ o.id _ o.quantity i1 i2 i3 i4 (by omega))
      (fun _ => refresh_preserves_inv env _ ch
        (inv_post_loop _ o.id _ o.quantity i1 i2 i3 i4 (by omega)))

theorem place_inv (env : Env) (s : State) (g ch u : Nat) (sd : Side) (p : ℚ) (q : ℤ)
    (mmf : Bool) (hq : 0 < q) (hs : BookInv s) :
    BookInv (place_limit_order env s g ch u sd p q mmf).1 :=
  match_orders_inv_fresh env s ch
    ⟨s.nextOrderId, g, ch, u, sd, round2 p, q, q, mmf, env.now⟩ hs rfl rfl hq

theorem inv_update_cash (t : State) (u : Nat) (a : ℤ) (h : BookInv t) :
    BookInv (update_cash t u a) := h

theorem inv_ensure_economy_row (t : State) (u : Nat) (h : BookInv t) :
    BookInv (ensure_economy_row t u) := h

theorem inv_update_holdings (t : State) (u ch : Nat) (d : ℤ) (pr : Option ℚ)
    (h : BookInv t) : BookInv (update_holdings t u ch d pr) := h

theorem inv_set_channelRevenue (t : State) (f : Nat → Nat → Option CRev)
    (h : BookInv t) : BookInv { t with channelRevenue := f } := h

theorem cancel_inv (s : State) (oid req : Nat) (hs : BookInv s) :
    BookInv (cancel s oid req).1 := by
  unfold cancel
  split
  · exact hs
  · split
    · exact hs
    · split
      · exact inv_delete_order _ _ (inv_update_cash s _ _ hs)
      · exact inv_delete_order _ _ (inv_update_holdings s _ _ _ none hs)

theorem foldl_book_frame {β : Type} (f : State → β → State)
    (hf : ∀ t b, (f t b).orders = t.orders ∧ (f t b).fillLog = t.fillLog ∧
      (f t b).nextOrderId = t.nextOrderId) :
    ∀ (l : List β) (s : State), (l.foldl f s).orders = s.orders ∧
      (l.foldl f s).fillLog = s.fillLog ∧ (l.foldl f s).nextOrderId = s.nextOrderId := by
  intro l
  induction l with
  | nil => exact fun s => ⟨rfl, rfl, rfl⟩
  | cons a t ih =>
      intro s
      rw [List.foldl_cons]
      obtain ⟨h1, h2, h3⟩ := ih (f s a)
      obtain ⟨g1, g2, g3⟩ := hf s a
      exact ⟨h1.trans g1, h2.trans g2, h3.trans g3⟩

theorem inv_foldl {β : Type} (f : State → β → State)
    (hf : ∀ t b, (f t b).orders = t.orders ∧ (f t b).fillLog = t.fillLog ∧
      (f t b).nextOrderId = t.nextOrderId)
    (l : List β) (s : State) (h : BookInv s) : BookInv (l.foldl f s) :=
  inv_of_book_eq s _ (foldl_book_frame f hf l s).1 (foldl_book_frame f hf l s).2.1
    (foldl_book_frame f hf l s).2.2 h

theorem settle_preserves_inv (env : Env) (s : State) (ch : Nat) (h : BookInv s) :
    BookInv (settle_weekly_revenue env s ch) := by
  unfold settle_weekly_revenue
  cases hco : s.companies ch with
  | none => exact h
  | some co =>
      apply refresh_preserves_inv
      have h1 : BookInv (if ((s.holdings.filter (fun hr =>
          hr.channelId == ch && hr.userId != MM_USER_ID && decide (hr.quantity > 0))).map
            (fun hr => hr.quantity)).sum > 0 ∧
          (match s.channelRevenue ch env.weekStart with
            | some r => r.accumulated
            | none => 0) * env.noise * get_dividend_pct s co.guildId > 0 then
          (s.holdings.filter (fun hr =>
            hr.channelId == ch && hr.userId != MM_USER_ID && decide (hr.quantity > 0))).foldl
            (fun acc hr =>
              let share_pct := (hr.quantity : ℚ) / (co.totalShares : ℚ)
              let payout := truncQ ((match s.channelRevenue ch env.weekStart with
                | some r => r.accumulated
                | none => 0) * env.noise * get_dividend_pct s co.guildId * share_pct)
              if payout > 0 then
                update_cash (ensure_economy_row acc hr.userId) hr.userId payout
              else acc) s
        else s) := by
        apply inv_ite
        · intro _
          apply inv_foldl
          · intro t b
            simp only []
            split
            · exact ⟨rfl, rfl, rfl⟩
            · exact ⟨rfl, rfl, rfl⟩
          · exact h
        · intro _
          exact h
      split
      · split
        · exact inv_updateCompany _ _ _ (inv_updateMMState _ _ _
            (inv_set_channelRevenue _ _ (inv_updateCompany _ _ _ h1)))
        · exact inv_set_channelRevenue _ _ (inv_updateCompany _ _ _ h1)
      · exact inv_set_channelRevenue _ _ (inv_updateCompany _ _ _ h1)

theorem step_inv (s : State) (op : Op) (hop : OpOK op) (hs : BookInv s) :
    BookInv (step s op) := by
  cases op with
  | place env g ch u sd p q mm => exact place_inv env s g ch u sd p q mm hop hs
  | cancelOrder oid req => exact cancel_inv s oid req hs
  | requote env ch => exact refresh_preserves_inv env s ch hs
  | settle env ch => exact settle_preserves_inv env s ch hs

theorem run_inv (ops : List Op) :
    ∀ (s : State), (∀ op ∈ ops, OpOK op) → BookInv s → BookInv (run s ops) := by
  induction ops with
  | nil => exact fun s _ hs => hs
  | cons op rest ih =>
      intro s hops hs
      show BookInv ((op :: rest).foldl step s)
      rw [List.foldl_cons]
      exact ih (step s op) (fun x hx => hops x (List.mem_cons_of_mem op hx))
        (step_inv s op (hops op (List.mem_cons_self op rest)) hs)

theorem mkInit_inv (companies : Nat → Option Company) (holdings : List HoldingRow)
    (economy : List EconRow) (mmS : Nat → Option MMState) (trades : List Trade)
    (chRev : Nat → Nat → Option CRev) (ms : Nat → Option ℚ)
    (ph : List (Nat × Nat × ℚ)) :
    BookInv (mkInit companies holdings economy mmS trades chRev ms ph) :=
  ⟨fun o ho => absurd ho (List.not_mem_nil o), List.nodup_nil,
    fun e he => absurd he (List.not_mem_nil e)⟩

/-- C5: order fill accounting is an invariant of every operation sequence.
Starting from a fresh order book, after any sequence of order placements
(with the positive quantities the command layer enforces), cancellations,
market-maker re-quotes and weekly settlements, every order resting in the
book satisfies 0 ≤ remaining ≤ quantity, and the total quantity filled
against that order across all trades equals quantity − remaining. -/
theorem C5_book_invariant (companies : Nat → Option Company) (holdings : List HoldingRow)
    (economy : List EconRow) (mmS : Nat → Option MMState) (trades : List Trade)
    (chRev : Nat → Nat → Option CRev) (ms : Nat → Option ℚ)
    (ph : List (Nat × Nat × ℚ)) (ops : List Op)
    (hops : ∀ op ∈ ops, OpOK op) :
    ∀ o ∈ (run (mkInit companies holdings economy mmS trades chRev ms ph) ops).orders,
      0 ≤ o.remaining ∧ o.remaining ≤ o.quantity ∧
      sumFillsFor (run (mkInit companies holdings economy mmS trades chRev ms ph)
        ops).fillLog o.id = o.quantity - o.remaining := by
  have h := run_inv ops (mkInit companies holdings economy mmS trades chRev ms ph) hops
    (mkInit_inv companies holdings economy mmS trades chRev ms ph)
  exact fun o ho => ⟨(h.1 o ho).1, (h.1 o ho).2.1, (h.1 o ho).2.2.1⟩

/-- C5 witness: placing a sell of 5 at 99 and then a buy of 10 at 101 on a
fresh book leaves a book whose every order satisfies the fill-accounting
invariant; the hypotheses are discharged by computation. -/
theorem C5_book_invariant_witness :
    (∀ op ∈ [Op.place envT 1 1 5 Side.sell 99 5 false,
        Op.place envT 1 1 6 Side.buy 101 10 false], OpOK op) ∧
    (∀ o ∈ (run (mkInit (fun _ => none) [] [] (fun _ => none) [] (fun _ _ => none)
        (fun _ => none) []) [Op.place envT 1 1 5 Side.sell 99 5 false,
        Op.place envT 1 1 6 Side.buy 101 10 false]).orders,
      0 ≤ o.remaining ∧ o.remaining ≤ o.quantity ∧
      sumFillsFor (run (mkInit (fun _ => none) [] [] (fun _ => none) [] (fun _ _ => none)
        (fun _ => none) []) [Op.place envT 1 1 5 Side.sell 99 5 false,
        Op.place envT 1 1 6 Side.buy 101 10 false]).fillLog o.id
        = o.quantity - o.remaining) :=
  ⟨by decide, C5_book_invariant (fun _ => none) [] [] (fun _ => none) [] (fun _ _ => none)
    (fun _ => none) [] [Op.place envT 1 1 5 Side.sell 99 5 false,
      Op.place envT 1 1 6 Side.buy 101 10 false] (by decide)⟩

end MikuMarket
